import Mathlib

/-!
Verification of the omniTask orchestration engine
(`src/omniTask/core/workflow.py`) against its natural-language
specification.

The Python code is shallowly embedded as executable Lean definitions:
Python dicts become insertion-ordered association lists, Python sets of
strings become duplicate-free lists (iteration order of a Python set is
implementation defined; the model fixes one order and every theorem that
is order sensitive either avoids the dependence or is proved at inputs
where the order is irrelevant), and the asynchronous round execution of
`Workflow.run` is sequentialized in the round order (`asyncio.gather`
preserves the order of the list it is given; a task only reads the
results of its dependencies, which come from earlier rounds, so the
sequentialization is observationally faithful).

External collaborators that are out of scope of the engine (the task
execution `Task.execute_with_timeout` and the task-group batch execution
`TaskGroup.execute`, whose classes are not part of the analysed source)
are parameters of the model, exactly as the specification treats them as
opaque interfaces.
-/

set_option maxHeartbeats 1000000

namespace OmniTask

/-- A Python-style duck-typed value (None / bool / int / str / list / dict). -/
inductive Value where
  | vnone  : Value
  | vbool  : Bool → Value
  | vint   : Int → Value
  | vstr   : String → Value
  | vlist  : List Value → Value
  | vdict  : List (String × Value) → Value

/-- A Python `dict` with string keys: an insertion-ordered association list.
Keys are unique by construction (`dictInsert` updates in place). -/
abbrev Dict (α : Type) := List (String × α)

/-- `d[k]` as an option (first binding wins; bindings are unique by
construction). -/
def dictLookup {α : Type} : Dict α → String → Option α
  | [], _ => none
  | (k, v) :: rest, key => if k == key then some v else dictLookup rest key

/-- `d[k] = v` with Python semantics: an existing key keeps its position,
a new key is appended. -/
def dictInsert {α : Type} : Dict α → String → α → Dict α
  | [], key, v => [(key, v)]
  | (k, w) :: rest, key, v =>
      if k == key then (k, v) :: rest else (k, w) :: dictInsert rest key v

/-- The keys of a dict, in insertion order. -/
def dictKeys {α : Type} (d : Dict α) : List String := d.map Prod.fst

/-- `d.get(k, default)`. -/
def dictGetD {α : Type} (d : Dict α) (k : String) (v : α) : α :=
  (dictLookup d k).getD v

/-- `k in d`. -/
def dictContains {α : Type} (d : Dict α) (k : String) : Bool :=
  (dictLookup d k).isSome

/-- A Python `set` of strings built from a list: duplicates removed.
The iteration order of a Python set is implementation defined; the model
keeps one fixed duplicate-free order. -/
def pySetOfList : List String → List String
  | [] => []
  | x :: rest =>
      if (pySetOfList rest).contains x then pySetOfList rest
      else x :: pySetOfList rest

/-- `s.add(x)` on a set modelled as a duplicate-free list. -/
def setAdd (s : List String) (x : String) : List String :=
  if s.contains x then s else s ++ [x]

/-- An exception raised by the external execution collaborator
(`Task.execute_with_timeout`); a `TimeoutError` is distinguished because
`run` tags it differently in its log line. -/
inductive Exn where
  | timeout : Exn
  | err     : String → Exn
deriving DecidableEq

/-- An exception raised synchronously by the workflow code itself
(`raise ValueError(...)` / a `KeyError` from an indexing expression). -/
inductive PyErr where
  | valueError : String → PyErr
  | keyError   : String → PyErr
deriving DecidableEq

/-- `TaskResult(success, output, error)` (`models/task_result.py`): the
value produced by one task execution. -/
structure TaskResult where
  success : Bool
  output  : Value
  error   : Option Exn

/-- A `Task` as the engine sees it (`core/task.py` interface): its name,
its declared dependency names in declaration order, its configuration,
and the two fields mutated by the orchestrator before dispatch. -/
structure Task where
  name               : String
  task_dependencies  : List String
  config             : Dict Value
  dependency_outputs : Dict Value
  dependency_order   : List String

/-- `TaskGroupConfig(type, for_each, config_template, max_concurrent)`
(`models/task_group.py` interface). -/
structure TaskGroupConfig where
  type            : String
  for_each        : String
  config_template : Dict Value
  max_concurrent  : Nat

/-- `TaskGroup(name, config)`: the runtime instance registered with the
workflow. -/
structure TaskGroup where
  name   : String
  config : TaskGroupConfig

/-! ## String primitives used by the engine

Python string operations (`in`, `str.replace`, `str.split`) are embedded
over `List Char` so that their semantics is fully explicit. -/

/-- `t` is a prefix of `s` (helper for substring search, mirroring how
Python's substring operations scan left to right). -/
def chListPre : List Char → List Char → Bool
  | [], _ => true
  | _ :: _, [] => false
  | a :: ts, b :: ss => a == b && chListPre ts ss

/-- Python `t in s` for strings: `t` occurs as a contiguous substring. -/
def chContains : List Char → List Char → Bool
  | [], t => t.isEmpty
  | c :: rest, t => chListPre t (c :: rest) || chContains rest t

/-- Python `s.replace(tok, rep)`: replace every occurrence of `tok`,
scanning left to right, non-overlapping.  Written with an explicit fuel
counter (structural recursion, so that concrete runs reduce inside the
kernel); each step consumes at least one character, so
`s.length + 1` fuel always suffices and the fuel-0 branch is dead.
(Python treats an empty `tok` by inserting `rep` between all characters;
the engine only ever calls this with the literal non-empty token
`"${item}"`, so the empty-token case is modelled as the identity.) -/
def pyReplaceFuel (tok rep : List Char) : Nat → List Char → List Char
  | 0, s => s
  | _ + 1, [] => []
  | fuel + 1, c :: rest =>
      match tok with
      | [] => c :: rest
      | t0 :: ts =>
          if chListPre (t0 :: ts) (c :: rest) then
            rep ++ pyReplaceFuel tok rep fuel (rest.drop ts.length)
          else
            c :: pyReplaceFuel tok rep fuel rest

/-- `s.replace(tok, rep)` on character lists. -/
def pyReplaceCh (tok rep s : List Char) : List Char :=
  pyReplaceFuel tok rep (s.length + 1) s

/-- Splitting at every occurrence of a non-empty token, scanning left to
right, non-overlapping: the list of the fragments between occurrences
(Python `s.split(sep)` for a non-empty separator).  Same fuel scheme as
`pyReplaceFuel`. -/
def specSplitFuel (tok : List Char) : Nat → List Char → List (List Char)
  | 0, s => [s]
  | _ + 1, [] => [[]]
  | fuel + 1, c :: rest =>
      match tok with
      | [] => [c :: rest]
      | t0 :: ts =>
          if chListPre (t0 :: ts) (c :: rest) then
            [] :: specSplitFuel tok fuel (rest.drop ts.length)
          else
            match specSplitFuel tok fuel rest with
            | [] => [[c]]
            | g :: gs => (c :: g) :: gs

/-- Python `s.split(sep)` on character lists (non-empty separator). -/
def pySplitCh (tok s : List Char) : List (List Char) :=
  specSplitFuel tok (s.length + 1) s

/-- Python `s.split(sep)` (line 222 and 225, `for_each.split('.')`). -/
def pySplit (s sep : String) : List String :=
  (pySplitCh sep.data s.data).map (fun l => String.mk l)

/-- Interleave `rep` between the fragments. -/
def chIntercalate (rep : List Char) : List (List Char) → List Char
  | [] => []
  | [g] => g
  | g :: g2 :: gs => g ++ rep ++ chIntercalate rep (g2 :: gs)

/-- Python `tok in s` on `String`. -/
def strContains (s tok : String) : Bool := chContains s.data tok.data

/-- Python `s.replace(tok, rep)` on `String`. -/
def pyReplaceStr (s tok rep : String) : String :=
  String.mk (pyReplaceCh tok.data rep.data s.data)

/-- The single quote character, used by `pyRepr` for string literals. -/
def qc : Char := '\x27'

mutual

/-- Python `repr(v)` (as used when a value appears inside a container's
`str`).  Escaping inside string literals is not modelled; no analysed
claim depends on it. -/
def pyRepr : Value → String
  | Value.vnone => "None"
  | Value.vbool b => if b then "True" else "False"
  | Value.vint n => toString n
  | Value.vstr s => String.singleton qc ++ s ++ String.singleton qc
  | Value.vlist xs => "[" ++ String.intercalate ", " (pyReprList xs) ++ "]"
  | Value.vdict kvs =>
      "\x7b" ++ String.intercalate ", " (pyReprDict kvs) ++ "\x7d"

/-- `repr` of each element of a list. -/
def pyReprList : List Value → List String
  | [] => []
  | v :: vs => pyRepr v :: pyReprList vs

/-- `repr(key): repr(value)` for each binding of a dict. -/
def pyReprDict : List (String × Value) → List String
  | [] => []
  | kv :: kvs =>
      (String.singleton qc ++ kv.1 ++ String.singleton qc ++ ": " ++ pyRepr kv.2)
        :: pyReprDict kvs

end

/-- Python `str(v)`: like `repr` except that a top-level string is
returned verbatim. -/
def pyStr : Value → String
  | Value.vstr s => s
  | v => pyRepr v

/-- The placeholder token substituted by config templating
(`_prepare_task_config`). -/
def itemTok : String := "${item}"

/-- The loop body of `_prepare_task_config` (lines 90-93): a string
value containing `"${item}"` has every occurrence replaced by
`str(item)` (`value.replace("${item}", str(item))`); any other value is
copied unchanged. -/
def renderVal (item : Value) : Value → Value
  | Value.vstr s =>
      if strContains s itemTok then Value.vstr (pyReplaceStr s itemTok (pyStr item))
      else Value.vstr s
  | v => v

/-- The loop of `_prepare_task_config` over the remaining template
entries, accumulating into `config`. -/
def prepCore (item : Value) : Dict Value → Dict Value → Dict Value
  | config, [] => config
  | config, kv :: rest => prepCore item (dictInsert config kv.1 (renderVal item kv.2)) rest

/-- `Workflow._prepare_task_config(template, item)` (lines 87-94):
`config = {}`, then for each template entry in order,
`config[key] = ...` per `renderVal`. -/
def prepare_task_config (template : Dict Value) (item : Value) : Dict Value :=
  prepCore item [] template

/-! ## The workflow aggregate and its synchronous operations -/

/-- The parts of a `Workflow` relevant to its synchronous operations:
the task map and the task-group map (`self.tasks`, `self.task_groups`). -/
structure Workflow where
  name        : String
  tasks       : Dict Task
  task_groups : Dict TaskGroup

/-- `Workflow.add_task` (lines 34-46): raises `ValueError` if a task of
that name exists, otherwise stores the task.  The (possibly updated)
workflow is returned alongside the outcome so that the absence of
mutation on the error path is an explicit fact of the model. -/
def Workflow.add_task (wf : Workflow) (task : Task) : Except PyErr Unit × Workflow :=
  if dictContains wf.tasks task.name then
    (Except.error (PyErr.valueError "task already exists in workflow"), wf)
  else
    (Except.ok (), { wf with tasks := dictInsert wf.tasks task.name task })

/-- `Workflow.add_task_group` (lines 48-53): raises `ValueError` if a
group of that name exists, otherwise builds `TaskGroup(name, config)`
and stores it. -/
def Workflow.add_task_group (wf : Workflow) (name : String) (config : TaskGroupConfig) :
    Except PyErr Unit × Workflow :=
  if dictContains wf.task_groups name then
    (Except.error (PyErr.valueError "task group already exists"), wf)
  else
    (Except.ok (),
     { wf with task_groups := dictInsert wf.task_groups name (TaskGroup.mk name config) })

/-- `Workflow.create_task` (lines 58-64): raises `ValueError` if a task
of that name exists; otherwise asks the registry collaborator
(`registry.create_task`, external to the analysed source, hence a
parameter) for a task and stores it. -/
def Workflow.create_task (registryCreate : String → String → Dict Value → Except PyErr Task)
    (wf : Workflow) (task_type : String) (name : String) (config : Dict Value) :
    Except PyErr Task × Workflow :=
  if dictContains wf.tasks name then
    (Except.error (PyErr.valueError "task already exists"), wf)
  else
    match registryCreate task_type name config with
    | Except.error e => (Except.error e, wf)
    | Except.ok task =>
        (Except.ok task, { wf with tasks := dictInsert wf.tasks name task })

/-- `Workflow.get_task` (lines 250-253): raises `ValueError` for an
unknown task name.  The method performs no mutation. -/
def Workflow.get_task (wf : Workflow) (name : String) : Except PyErr Task :=
  match dictLookup wf.tasks name with
  | none => Except.error (PyErr.valueError "task not found")
  | some t => Except.ok t

/-- `Workflow.get_task_output` (lines 273-278): the task's output if the
name is a task, else the group's output if it is a group, else a
`ValueError`.  `Task.get_output` and `TaskGroup.get_output` live outside
the analysed source and are parameters. -/
def Workflow.get_task_output (taskOut : Task → Value) (groupOut : TaskGroup → Value)
    (wf : Workflow) (task_name : String) : Except PyErr Value :=
  match dictLookup wf.tasks task_name with
  | some t => Except.ok (taskOut t)
  | none =>
      match dictLookup wf.task_groups task_name with
      | some g => Except.ok (groupOut g)
      | none => Except.error (PyErr.valueError "task or group not found")

/-! ## The round-based executor (`Workflow.run`, lines 175-248)

The run is parameterized by the two external collaborators:
`exec name` is `self.tasks[name].execute_with_timeout()` — it returns a
`TaskResult` or raises an arbitrary exception; `gexec gname items` is
the aggregated `TaskResult` produced by
`group.create_tasks(registry, items); await group.execute()`
(`TaskGroup` is not part of the analysed source; per the specification
it materializes and runs its own batch and returns one combined result,
without touching the workflow's task map).

The model additionally produces a log of events; each event is emitted
exactly where the corresponding source line executes, so that temporal
claims (what was dispatched, when, with what visible state) are
statable. -/

/-- Observable events of one run. -/
inductive Event where
  /-- One loop iteration began with this ready list (line 192). -/
  | roundReady   : List String → Event
  /-- `execute_with_timeout` was invoked for this task (line 166), with
  the keys of `results` and the completed set at that moment. -/
  | dispatch     : String → List String → List String → Event
  /-- The name was added to `completed_tasks` (line 215). -/
  | completedAdd : String → Event
  /-- The group-expansion branch was entered for this (group, task) pair
  (line 222's condition was true). -/
  | triggered    : String → String → Event
  /-- The group's aggregated result was recorded in `results` (line 239). -/
  | expanded     : String → String → Event
  /-- Path resolution for the group failed (line 232 or 235 raised). -/
  | pathError    : String → String → Event
deriving DecidableEq

/-- The mutable state of one run: the workflow's maps plus the loop's
`results` and `completed_tasks`. -/
structure RunState where
  tasks      : Dict Task
  groups     : Dict TaskGroup
  deps       : Dict (List String)
  dependents : Dict (List String)
  results    : Dict TaskResult
  completed  : List String

/-- Outcome of processing one completed task (lines 211-246): continue
the loop, return the accumulated results (halt, line 219), or propagate
a raised exception (lines 232/235).  The state is carried in every case
because the workflow object is mutated in place. -/
inductive StepRes where
  | cont  : RunState → StepRes
  | halt  : RunState → StepRes
  | raise : PyErr → RunState → StepRes

/-- `r` is a `cont`. -/
def StepRes.isCont : StepRes → Bool
  | StepRes.cont _ => true
  | _ => false

/-- The state carried by a `StepRes`. -/
def StepRes.state : StepRes → RunState
  | StepRes.cont st => st
  | StepRes.halt st => st
  | StepRes.raise _ st => st

/-- How one run ended: both terminal states of the specification, a
raised exception, or exhausted fuel (the model's loop counter; proved
unreachable for the fuel `run` supplies). -/
inductive Outcome where
  | drained : Outcome
  | halted  : Outcome
  | fuelOut : Outcome
  | raised  : PyErr → Outcome
deriving DecidableEq

/-- `Workflow._build_dependency_graph` (lines 138-147): for every task,
`task_dependencies[name] = set(task.task_dependencies)`; for every
declared dependency `d`, `name` is added to `task_dependents[d]`. -/
def build_dependency_graph (tasks : Dict Task) :
    Dict (List String) × Dict (List String) :=
  tasks.foldl
    (fun maps entry =>
      let depsMap := dictInsert maps.1 entry.1 (pySetOfList entry.2.task_dependencies)
      let depMap := entry.2.task_dependencies.foldl
        (fun dm dep =>
          let dm := if dictContains dm dep then dm else dictInsert dm dep []
          dictInsert dm dep (setAdd (dictGetD dm dep []) entry.1))
        maps.2
      (depsMap, depMap))
    ([], [])

/-- `Workflow._get_ready_tasks` (lines 149-156): the not-yet-completed
tasks whose every recorded dependency is completed.  The source returns
a Python set; the model returns the list in task-map order (set
iteration order is implementation defined). -/
def get_ready_tasks (st : RunState) : List String :=
  st.tasks.foldl
    (fun ready entry =>
      if !(st.completed.contains entry.1) && !(ready.contains entry.1)
          && (dictGetD st.deps entry.1 []).all (fun d => st.completed.contains d) then
        ready ++ [entry.1]
      else ready)
    []

/-- The path walk of lines 228-232: each remaining segment must resolve
through a dict. -/
def walkParts : Value → List String → Option Value
  | v, [] => some v
  | Value.vdict kvs, p :: ps =>
      match dictLookup kvs p with
      | some v => walkParts v ps
      | none => none
  | _, _ :: _ => none

/-- `isinstance(v, list)` (line 234), yielding the elements. -/
def asListValue : Value → Option (List Value)
  | Value.vlist items => some items
  | _ => none

/-- `Workflow._execute_task` (lines 158-173) for one task: inject
`dependency_outputs` (from `results`, keyed by the recorded dependency
set) and `dependency_order`, then invoke the execution collaborator.  A
successful result is stored in `results` (line 167); a raised exception
is returned to the caller (captured by `asyncio.gather`).  The `none`
branches model the `KeyError` an indexing expression would raise; they
are proved unreachable in actual runs. -/
def execOne (exec : String → Except Exn TaskResult) (st : RunState) (name : String) :
    RunState × Except Exn TaskResult × List Event :=
  match dictLookup st.tasks name with
  | none => (st, Except.error (Exn.err "KeyError: unknown task"), [])
  | some task =>
      let ds := dictGetD st.deps name []
      if ds.all (fun d => dictContains st.results d) then
        let task1 := { task with
          dependency_outputs :=
            ds.map (fun d => (d, ((dictLookup st.results d).map TaskResult.output).getD Value.vnone)),
          dependency_order := ds }
        let st1 := { st with tasks := dictInsert st.tasks name task1 }
        let ev := Event.dispatch name (dictKeys st1.results) st1.completed
        match exec name with
        | Except.ok r =>
            ({ st1 with results := dictInsert st1.results name r }, Except.ok r, [ev])
        | Except.error e => (st1, Except.error e, [ev])
      else
        (st, Except.error (Exn.err "KeyError: missing dependency result"), [])

/-- The concurrent dispatch of one round (lines 206-209,
`asyncio.gather(*(self._execute_task(...)))` with
`return_exceptions=True`), sequentialized in the round order: the final
state, the per-task outcomes in order, and the emitted events. -/
def execPhase (exec : String → Except Exn TaskResult) (st : RunState) :
    List String → RunState × List (String × Except Exn TaskResult) × List Event
  | [] => (st, [], [])
  | n :: rest =>
      let r1 := execOne exec st n
      let r2 := execPhase exec r1.1 rest
      (r2.1, (n, r1.2.1) :: r2.2.1, r1.2.2 ++ r2.2.2)

/-- The loop body of lines 241-246 over the remaining dependents: a
dependent that exists in the task map gets the group output assigned
into `dependency_outputs[group_name]`, and the group name appended to
its `dependency_order` if absent. -/
def pushList (gname : String) (out : Value) : RunState → List String → RunState
  | st, [] => st
  | st, next :: rest =>
      match dictLookup st.tasks next with
      | none => pushList gname out st rest
      | some t =>
          pushList gname out
            { st with tasks := (dictInsert st.tasks next
                { t with
                  dependency_outputs := dictInsert t.dependency_outputs gname out,
                  dependency_order :=
                    if t.dependency_order.contains gname then t.dependency_order
                    else t.dependency_order ++ [gname] }) }
            rest

/-- Lines 241-246: push a recorded group output to every task in
`task_dependents.get(group_name, set())`. -/
def pushToDependents (st : RunState) (gname : String) (out : Value) : RunState :=
  pushList gname out st (dictGetD st.dependents gname [])

/-- The group-expansion loop of lines 221-246, run for the completed
task `name` over the registered groups in registration order.  A group
is entered when ANY dot-separated segment of its `for_each` equals the
task name (line 222); the walk then descends the segments after the
first into `results[name].output`, raising `ValueError` when a segment
fails to resolve or the final value is not a list; otherwise the
aggregated batch result is recorded under the group's name and pushed to
the group's dependents. -/
def expandGroups (gexec : String → List Value → TaskResult) (st : RunState)
    (name : String) : List (String × TaskGroup) → List Event × StepRes
  | [] => ([], StepRes.cont st)
  | (gname, grp) :: rest =>
      if (pySplit grp.config.for_each ".").any (fun seg => seg == name) then
        match dictLookup st.results name with
        | none =>
            ([Event.triggered gname name],
             StepRes.raise (PyErr.keyError "KeyError: results") st)
        | some res =>
            match walkParts res.output (pySplit grp.config.for_each ".").tail with
            | none =>
                ([Event.triggered gname name, Event.pathError gname name],
                 StepRes.raise (PyErr.valueError "path not found in task output") st)
            | some v =>
                match asListValue v with
                | none =>
                    ([Event.triggered gname name, Event.pathError gname name],
                     StepRes.raise (PyErr.valueError "expected list at path") st)
                | some items =>
                    let gr := gexec gname items
                    let st1 := { st with results := dictInsert st.results gname gr }
                    let st2 := pushToDependents st1 gname gr.output
                    let r := expandGroups gexec st2 name rest
                    (Event.triggered gname name :: Event.expanded gname name :: r.1, r.2)
      else
        expandGroups gexec st name rest

/-- Lines 211-246 for one (task, gather outcome) pair: convert a raised
exception into a failed `TaskResult` with empty output (line 214), add
the task to `completed_tasks` (line 215), halt if its recorded result
failed (lines 217-219), otherwise run group expansion. -/
def processOne (gexec : String → List Value → TaskResult) (st : RunState)
    (name : String) (oc : Except Exn TaskResult) : List Event × StepRes :=
  let st1 :=
    match oc with
    | Except.error e =>
        { st with results :=
            dictInsert st.results name (TaskResult.mk false (Value.vdict []) (some e)) }
    | Except.ok _ => st
  let st2 := { st1 with completed := setAdd st1.completed name }
  match dictLookup st2.results name with
  | none => ([Event.completedAdd name], StepRes.raise (PyErr.keyError "KeyError: result") st2)
  | some res =>
      if res.success then
        let r := expandGroups gexec st2 name st2.groups
        (Event.completedAdd name :: r.1, r.2)
      else
        ([Event.completedAdd name], StepRes.halt st2)

/-- The post-round loop of line 211 (`for task_name, result in zip(...)`)
over the whole round: stops at the first halt or raise. -/
def processPhase (gexec : String → List Value → TaskResult) (st : RunState) :
    List (String × Except Exn TaskResult) → List Event × StepRes
  | [] => ([], StepRes.cont st)
  | (name, oc) :: rest =>
      let r := processOne gexec st name oc
      match r.2 with
      | StepRes.cont st1 =>
          let r2 := processPhase gexec st1 rest
          (r.1 ++ r2.1, r2.2)
      | other => (r.1, other)

/-- The `while True` loop of lines 191-247, with an explicit fuel
counter standing for the (proved) termination of the loop. -/
def runLoop (exec : String → Except Exn TaskResult)
    (gexec : String → List Value → TaskResult) :
    Nat → RunState → List Event × Outcome × RunState
  | 0, st => ([], Outcome.fuelOut, st)
  | fuel + 1, st =>
      let ready := get_ready_tasks st
      if ready.isEmpty then ([Event.roundReady ready], Outcome.drained, st)
      else
        let toExec := ready.filter (fun n => dictContains st.tasks n)
        if toExec.isEmpty then ([Event.roundReady ready], Outcome.drained, st)
        else
          let p1 := execPhase exec st toExec
          let p2 := processPhase gexec p1.1 p1.2.1
          match p2.2 with
          | StepRes.cont st2 =>
              let r := runLoop exec gexec fuel st2
              (Event.roundReady ready :: (p1.2.2 ++ p2.1 ++ r.1), r.2.1, r.2.2)
          | StepRes.halt st2 =>
              (Event.roundReady ready :: (p1.2.2 ++ p2.1), Outcome.halted, st2)
          | StepRes.raise e st2 =>
              (Event.roundReady ready :: (p1.2.2 ++ p2.1), Outcome.raised e, st2)

/-- `Workflow.run` (lines 175-248): build the dependency graph once,
then iterate rounds until drained, halted, or an exception propagates.
The fuel `tasks.length + 1` is sufficient because every round completes
at least one task (proved below).  The returned `RunState.results` is
the dictionary `run` returns (or has accumulated when it halts or
raises). -/
def runWorkflow (exec : String → Except Exn TaskResult)
    (gexec : String → List Value → TaskResult)
    (tasks : Dict Task) (groups : Dict TaskGroup) :
    List Event × Outcome × RunState :=
  let g := build_dependency_graph tasks
  runLoop exec gexec (tasks.length + 1)
    (RunState.mk tasks groups g.1 g.2 [] [])

/-! ## Dictionary and set lemmas -/

theorem dictLookup_insert_self {α : Type} (d : Dict α) (k : String) (v : α) :
    dictLookup (dictInsert d k v) k = some v := by
  induction d with
  | nil => simp [dictInsert, dictLookup]
  | cons hd tl ih =>
      by_cases h : hd.1 = k
      · simp [dictInsert, dictLookup, h]
      · simp only [dictInsert]
        rw [if_neg (by simpa using h)]
        simp only [dictLookup]
        rw [if_neg (by simpa using h)]
        exact ih

theorem dictLookup_insert_ne {α : Type} (d : Dict α) (k k2 : String) (v : α)
    (h : ¬ k = k2) : dictLookup (dictInsert d k v) k2 = dictLookup d k2 := by
  induction d with
  | nil => simp [dictInsert, dictLookup, h]
  | cons hd tl ih =>
      simp only [dictInsert]
      by_cases h2 : hd.1 = k
      · rw [if_pos (by simpa using h2)]
        have h4 : ¬ hd.1 = k2 := by rw [h2]; exact h
        simp only [dictLookup]
        rw [if_neg (by simpa using h4), if_neg (by simpa using h4)]
      · rw [if_neg (by simpa using h2)]
        simp only [dictLookup]
        by_cases h3 : hd.1 = k2
        · rw [if_pos (by simpa using h3), if_pos (by simpa using h3)]
        · rw [if_neg (by simpa using h3), if_neg (by simpa using h3)]
          exact ih

theorem mem_dictKeys_insert {α : Type} (d : Dict α) (k : String) (v : α) (x : String) :
    x ∈ dictKeys (dictInsert d k v) ↔ x = k ∨ x ∈ dictKeys d := by
  induction d with
  | nil => simp [dictInsert, dictKeys]
  | cons hd tl ih =>
      by_cases h : hd.1 = k
      · subst h
        simp only [dictInsert, beq_self_eq_true, if_true]
        simp only [dictKeys, List.map_cons, List.mem_cons]
        tauto
      · simp only [dictInsert]
        rw [if_neg (by simpa using h)]
        simp only [dictKeys, List.map_cons, List.mem_cons] at ih ⊢
        rw [ih]
        tauto

theorem dictKeys_insert_of_mem {α : Type} (d : Dict α) (k : String) (v : α)
    (h : k ∈ dictKeys d) : dictKeys (dictInsert d k v) = dictKeys d := by
  induction d with
  | nil => simp [dictKeys] at h
  | cons hd tl ih =>
      by_cases h2 : hd.1 = k
      · simp only [dictInsert]
        rw [if_pos (by simpa using h2)]
        simp [dictKeys]
      · simp only [dictInsert]
        rw [if_neg (by simpa using h2)]
        simp only [dictKeys, List.map_cons] at h ⊢
        rcases List.mem_cons.mp h with h3 | h3
        · exact absurd h3.symm h2
        · have h4 := ih (by simpa [dictKeys] using h3)
          simp only [dictKeys] at h4
          rw [h4]

theorem dictLookup_isSome_iff_mem {α : Type} (d : Dict α) (k : String) :
    (dictLookup d k).isSome = true ↔ k ∈ dictKeys d := by
  induction d with
  | nil => simp [dictLookup, dictKeys]
  | cons hd tl ih =>
      by_cases h : hd.1 = k
      · simp [dictLookup, dictKeys, h]
      · simp only [dictLookup]
        rw [if_neg (by simpa using h)]
        simp only [dictKeys, List.map_cons, List.mem_cons]
        rw [ih]
        simp only [dictKeys]
        constructor
        · exact fun hm => Or.inr hm
        · rintro (hm | hm)
          · exact absurd hm.symm h
          · exact hm

theorem dictContains_iff_mem {α : Type} (d : Dict α) (k : String) :
    dictContains d k = true ↔ k ∈ dictKeys d := by
  simpa [dictContains] using dictLookup_isSome_iff_mem d k

theorem dictLookup_eq_none_of_not_mem {α : Type} (d : Dict α) (k : String)
    (h : k ∉ dictKeys d) : dictLookup d k = none := by
  cases hl : dictLookup d k with
  | none => rfl
  | some v =>
      exact absurd ((dictLookup_isSome_iff_mem d k).mp (by simp [hl])) h

theorem dictLookup_mem_of_some {α : Type} (d : Dict α) (k : String) (v : α)
    (h : dictLookup d k = some v) : k ∈ dictKeys d :=
  (dictLookup_isSome_iff_mem d k).mp (by simp [h])

theorem mem_pySetOfList (l : List String) : ∀ x : String,
    x ∈ pySetOfList l ↔ x ∈ l := by
  induction l with
  | nil => intro x; simp [pySetOfList]
  | cons hd tl ih =>
      intro x
      simp only [pySetOfList, List.mem_cons]
      by_cases h : (pySetOfList tl).contains hd = true
      · rw [if_pos h]
        rw [ih x]
        have hhd : hd ∈ tl := (ih hd).mp (by simpa using h)
        constructor
        · exact fun hm => Or.inr hm
        · rintro (hm | hm)
          · subst hm; exact hhd
          · exact hm
      · rw [if_neg h]
        simp only [List.mem_cons]
        rw [ih x]

theorem pySetOfList_nodup (l : List String) : (pySetOfList l).Nodup := by
  induction l with
  | nil => simp [pySetOfList]
  | cons hd tl ih =>
      simp only [pySetOfList]
      by_cases h : (pySetOfList tl).contains hd = true
      · rw [if_pos h]; exact ih
      · rw [if_neg h]
        exact List.nodup_cons.mpr ⟨by simpa using h, ih⟩

theorem mem_setAdd (s : List String) (x y : String) :
    y ∈ setAdd s x ↔ y = x ∨ y ∈ s := by
  simp only [setAdd]
  by_cases h : s.contains x = true
  · rw [if_pos h]
    constructor
    · exact fun hm => Or.inr hm
    · rintro (hm | hm)
      · subst hm; simpa using h
      · exact hm
  · rw [if_neg h]
    simp only [List.mem_append, List.mem_singleton]
    tauto

theorem setAdd_nodup (s : List String) (x : String) (h : s.Nodup) :
    (setAdd s x).Nodup := by
  simp only [setAdd]
  by_cases hc : s.contains x = true
  · rw [if_pos hc]; exact h
  · rw [if_neg hc]
    simpa [List.nodup_append] using ⟨h, by simpa using hc⟩

/-! ## Dependency-graph builder lemmas -/

theorem foldl_insert_lookup_not_mem {β : Type} (g : β → List String) :
    ∀ (l : List (String × β)) (acc : Dict (List String)) (n : String),
    n ∉ l.map Prod.fst →
    dictLookup (l.foldl (fun m e => dictInsert m e.1 (g e.2)) acc) n = dictLookup acc n := by
  intro l
  induction l with
  | nil => intro acc n _; rfl
  | cons hd tl ih =>
      intro acc n hn
      simp only [List.map_cons, List.mem_cons] at hn
      push_neg at hn
      simp only [List.foldl_cons]
      rw [ih _ n hn.2, dictLookup_insert_ne _ _ _ _ (fun hc => hn.1 hc.symm)]

theorem foldl_insert_lookup_mem {β : Type} (g : β → List String) :
    ∀ (l : List (String × β)) (acc : Dict (List String)) (n : String) (t : β),
    (l.map Prod.fst).Nodup → (n, t) ∈ l →
    dictLookup (l.foldl (fun m e => dictInsert m e.1 (g e.2)) acc) n = some (g t) := by
  intro l
  induction l with
  | nil => intro acc n t _ hm; simp at hm
  | cons hd tl ih =>
      intro acc n t hnd hm
      simp only [List.map_cons, List.nodup_cons] at hnd
      simp only [List.foldl_cons]
      rcases List.mem_cons.mp hm with h1 | h1
      · subst h1
        rw [foldl_insert_lookup_not_mem g tl _ n hnd.1]
        exact dictLookup_insert_self acc n (g t)
      · exact ih _ n t hnd.2 h1

theorem build_graph_fst (tasks : Dict Task) :
    ∀ acc : Dict (List String) × Dict (List String),
    (tasks.foldl
      (fun maps entry =>
        (dictInsert maps.1 entry.1 (pySetOfList entry.2.task_dependencies),
         entry.2.task_dependencies.foldl
           (fun dm dep =>
             dictInsert (if dictContains dm dep then dm else dictInsert dm dep [])
               dep
               (setAdd (dictGetD (if dictContains dm dep then dm else dictInsert dm dep []) dep []) entry.1))
           maps.2)) acc).1
    = tasks.foldl (fun m e => dictInsert m e.1 (pySetOfList e.2.task_dependencies)) acc.1 := by
  induction tasks with
  | nil => intro acc; rfl
  | cons hd tl ih =>
      intro acc
      simp only [List.foldl_cons]
      exact ih _

/-- The fold body of `build_dependency_graph` written with its `let`s
inlined is the fold body of the definition. -/
theorem build_dependency_graph_eq (tasks : Dict Task) :
    build_dependency_graph tasks =
      tasks.foldl
        (fun maps entry =>
          (dictInsert maps.1 entry.1 (pySetOfList entry.2.task_dependencies),
           entry.2.task_dependencies.foldl
             (fun dm dep =>
               dictInsert (if dictContains dm dep then dm else dictInsert dm dep [])
                 dep
                 (setAdd (dictGetD (if dictContains dm dep then dm else dictInsert dm dep []) dep []) entry.1))
             maps.2)) ([], []) := by
  simp only [build_dependency_graph]

/-- With unique task names, the dependency map built by
`_build_dependency_graph` records, for each task, exactly the set of its
declared dependency names. -/
theorem build_graph_deps_lookup (tasks : Dict Task) (n : String) (t : Task)
    (hnd : (dictKeys tasks).Nodup) (hm : (n, t) ∈ tasks) :
    dictLookup (build_dependency_graph tasks).1 n = some (pySetOfList t.task_dependencies) := by
  rw [build_dependency_graph_eq, build_graph_fst]
  exact foldl_insert_lookup_mem (fun b => pySetOfList b.task_dependencies) tasks [] n t hnd hm

/-! ## Readiness-selector lemmas -/

theorem readyFold_mono (completed : List String) (deps : Dict (List String)) :
    ∀ (l : List (String × Task)) (acc : List String) (x : String),
    x ∈ acc →
    x ∈ l.foldl
      (fun ready entry =>
        if !(completed.contains entry.1) && !(ready.contains entry.1)
            && (dictGetD deps entry.1 []).all (fun d => completed.contains d) then
          ready ++ [entry.1]
        else ready) acc := by
  intro l
  induction l with
  | nil => intro acc x hx; exact hx
  | cons hd tl ih =>
      intro acc x hx
      simp only [List.foldl_cons]
      by_cases h : (!(completed.contains hd.1) && !(acc.contains hd.1)
          && (dictGetD deps hd.1 []).all (fun d => completed.contains d)) = true
      · rw [if_pos h]
        exact ih _ x (List.mem_append_left _ hx)
      · rw [if_neg h]
        exact ih _ x hx

theorem readyFold_mem (completed : List String) (deps : Dict (List String)) :
    ∀ (l : List (String × Task)) (acc : List String) (x : String),
    (x ∈ l.foldl
      (fun ready entry =>
        if !(completed.contains entry.1) && !(ready.contains entry.1)
            && (dictGetD deps entry.1 []).all (fun d => completed.contains d) then
          ready ++ [entry.1]
        else ready) acc)
    ↔ x ∈ acc ∨ (x ∈ l.map Prod.fst ∧ completed.contains x = false ∧
        (dictGetD deps x []).all (fun d => completed.contains d) = true) := by
  intro l
  induction l with
  | nil => intro acc x; simp
  | cons hd tl ih =>
      intro acc x
      simp only [List.foldl_cons, List.map_cons, List.mem_cons]
      by_cases h : (!(completed.contains hd.1) && !(acc.contains hd.1)
          && (dictGetD deps hd.1 []).all (fun d => completed.contains d)) = true
      · rw [if_pos h]
        rw [ih]
        simp only [List.mem_append, List.mem_singleton]
        constructor
        · rintro ((hx | hx) | hx)
          · exact Or.inl hx
          · subst hx
            have h' := h
            simp only [Bool.and_eq_true, Bool.not_eq_true'] at h'
            exact Or.inr ⟨Or.inl rfl, h'.1.1, h'.2⟩
          · exact Or.inr ⟨Or.inr hx.1, hx.2⟩
        · rintro (hx | ⟨hx1 | hx1, hx2, hx3⟩)
          · exact Or.inl (Or.inl hx)
          · exact Or.inl (Or.inr hx1)
          · exact Or.inr ⟨hx1, hx2, hx3⟩
      · rw [if_neg h]
        rw [ih]
        constructor
        · rintro (hx | hx)
          · exact Or.inl hx
          · exact Or.inr ⟨Or.inr hx.1, hx.2⟩
        · rintro (hx | ⟨hx1 | hx1, hx2, hx3⟩)
          · exact Or.inl hx
          · subst hx1
            -- the guard failed, yet x satisfies its first and third
            -- conjunct, so x must already be in acc
            by_cases hacc : acc.contains hd.1 = true
            · exact Or.inl (by simpa using hacc)
            · exfalso
              apply h
              have hacc2 : acc.contains hd.1 = false := by
                cases hc : acc.contains hd.1
                · rfl
                · exact absurd hc hacc
              simp only [Bool.and_eq_true, Bool.not_eq_true']
              exact ⟨⟨hx2, hacc2⟩, hx3⟩
          · exact Or.inr ⟨hx1, hx2, hx3⟩

/-- `_get_ready_tasks` membership: exactly the not-completed task names
whose every recorded dependency is completed. -/
theorem mem_get_ready_tasks (st : RunState) (x : String) :
    x ∈ get_ready_tasks st ↔
      x ∈ dictKeys st.tasks ∧ x ∉ st.completed ∧
      ∀ d ∈ dictGetD st.deps x [], d ∈ st.completed := by
  have h := readyFold_mem st.completed st.deps st.tasks [] x
  simp only [get_ready_tasks]
  rw [h]
  simp only [List.not_mem_nil, false_or, dictKeys]
  constructor
  · rintro ⟨h1, h2, h3⟩
    refine ⟨h1, by simpa using h2, ?_⟩
    intro d hd
    have := List.all_eq_true.mp h3 d hd
    simpa using this
  · rintro ⟨h1, h2, h3⟩
    refine ⟨h1, by simpa using h2, ?_⟩
    exact List.all_eq_true.mpr (fun d hd => by simpa using h3 d hd)

theorem readyFold_nodup (completed : List String) (deps : Dict (List String)) :
    ∀ (l : List (String × Task)) (acc : List String),
    acc.Nodup →
    (l.foldl
      (fun ready entry =>
        if !(completed.contains entry.1) && !(ready.contains entry.1)
            && (dictGetD deps entry.1 []).all (fun d => completed.contains d) then
          ready ++ [entry.1]
        else ready) acc).Nodup := by
  intro l
  induction l with
  | nil => intro acc h; exact h
  | cons hd tl ih =>
      intro acc hacc
      simp only [List.foldl_cons]
      by_cases h : (!(completed.contains hd.1) && !(acc.contains hd.1)
          && (dictGetD deps hd.1 []).all (fun d => completed.contains d)) = true
      · rw [if_pos h]
        refine ih _ ?_
        have h' := h
        simp only [Bool.and_eq_true, Bool.not_eq_true'] at h'
        simpa [List.nodup_append] using ⟨hacc, by simpa using h'.1.2⟩
      · rw [if_neg h]
        exact ih _ hacc

/-- The ready list is duplicate-free. -/
theorem get_ready_tasks_nodup (st : RunState) : (get_ready_tasks st).Nodup := by
  simpa only [get_ready_tasks] using
    readyFold_nodup st.completed st.deps st.tasks [] List.nodup_nil

/-! ## Frame facts: what a step of the run can and cannot change -/

/-- Facts relating a state to any later state of the same run: the group
map and the two derived maps never change, the set of task names never
changes, and the result keys and the completed set only grow. -/
structure StepFacts (st st2 : RunState) : Prop where
  groups : st2.groups = st.groups
  deps : st2.deps = st.deps
  dependents : st2.dependents = st.dependents
  taskKeys : dictKeys st2.tasks = dictKeys st.tasks
  resultsMono : ∀ k, k ∈ dictKeys st.results → k ∈ dictKeys st2.results
  completedMono : ∀ k, k ∈ st.completed → k ∈ st2.completed

theorem stepFacts_refl (st : RunState) : StepFacts st st :=
  ⟨rfl, rfl, rfl, rfl, fun _ h => h, fun _ h => h⟩

theorem stepFacts_trans {a b c : RunState} (h1 : StepFacts a b) (h2 : StepFacts b c) :
    StepFacts a c :=
  ⟨h2.groups.trans h1.groups, h2.deps.trans h1.deps,
   h2.dependents.trans h1.dependents, h2.taskKeys.trans h1.taskKeys,
   fun k hk => h2.resultsMono k (h1.resultsMono k hk),
   fun k hk => h2.completedMono k (h1.completedMono k hk)⟩

theorem pushList_facts (gname : String) (out : Value) :
    ∀ (l : List String) (st : RunState),
    (pushList gname out st l).groups = st.groups ∧
    (pushList gname out st l).deps = st.deps ∧
    (pushList gname out st l).dependents = st.dependents ∧
    (pushList gname out st l).results = st.results ∧
    (pushList gname out st l).completed = st.completed ∧
    dictKeys (pushList gname out st l).tasks = dictKeys st.tasks := by
  intro l
  induction l with
  | nil => intro st; exact ⟨rfl, rfl, rfl, rfl, rfl, rfl⟩
  | cons next rest ih =>
      intro st
      simp only [pushList]
      cases hl : dictLookup st.tasks next with
      | none => exact ih st
      | some t =>
          have h2 := ih { st with tasks := (dictInsert st.tasks next
            { t with
              dependency_outputs := dictInsert t.dependency_outputs gname out,
              dependency_order :=
                if t.dependency_order.contains gname then t.dependency_order
                else t.dependency_order ++ [gname] }) }
          refine ⟨h2.1, h2.2.1, h2.2.2.1, h2.2.2.2.1, h2.2.2.2.2.1, ?_⟩
          rw [h2.2.2.2.2.2]
          exact dictKeys_insert_of_mem st.tasks next _ (dictLookup_mem_of_some _ _ _ hl)

theorem pushToDependents_facts (st : RunState) (gname : String) (out : Value) :
    (pushToDependents st gname out).groups = st.groups ∧
    (pushToDependents st gname out).deps = st.deps ∧
    (pushToDependents st gname out).dependents = st.dependents ∧
    (pushToDependents st gname out).results = st.results ∧
    (pushToDependents st gname out).completed = st.completed ∧
    dictKeys (pushToDependents st gname out).tasks = dictKeys st.tasks :=
  pushList_facts gname out (dictGetD st.dependents gname []) st

/-- The outcome of one execution attempt is a success. -/
def isOkB {ε α : Type} : Except ε α → Bool
  | Except.ok _ => true
  | Except.error _ => false

/-- `execOne` leaves the maps and the completed set alone; its state
changes are confined to the dispatched task's fields and possibly a new
binding `results[name]`. -/
theorem execOne_facts (exec : String → Except Exn TaskResult) (st : RunState)
    (name : String) :
    (execOne exec st name).1.groups = st.groups ∧
    (execOne exec st name).1.deps = st.deps ∧
    (execOne exec st name).1.dependents = st.dependents ∧
    (execOne exec st name).1.completed = st.completed ∧
    dictKeys (execOne exec st name).1.tasks = dictKeys st.tasks ∧
    (∀ k, k ∈ dictKeys (execOne exec st name).1.results ↔
      k ∈ dictKeys st.results ∨ (isOkB (execOne exec st name).2.1 = true ∧ k = name)) := by
  cases hl : dictLookup st.tasks name with
  | none => simp [execOne, hl, isOkB]
  | some task =>
      simp only [execOne, hl]
      by_cases hg : ((dictGetD st.deps name []).all fun d => dictContains st.results d) = true
      · rw [if_pos hg]
        have hkeys : ∀ t : Task, dictKeys (dictInsert st.tasks name t) = dictKeys st.tasks :=
          fun t => dictKeys_insert_of_mem st.tasks name t (dictLookup_mem_of_some _ _ _ hl)
        cases he : exec name with
        | ok r =>
            refine ⟨rfl, rfl, rfl, rfl, hkeys _, ?_⟩
            intro k
            show k ∈ dictKeys (dictInsert st.results name r) ↔ _
            rw [mem_dictKeys_insert]
            simp only [isOkB, true_and]
            tauto
        | error e =>
            refine ⟨rfl, rfl, rfl, rfl, hkeys _, ?_⟩
            intro k
            simp [isOkB]
      · rw [if_neg hg]
        exact ⟨rfl, rfl, rfl, rfl, rfl, fun k => by simp [isOkB]⟩

/-- The events of `execOne`: at most one dispatch of `name`, carrying
the current result keys and completed set, and emitted only when every
recorded dependency has a result. -/
theorem execOne_events (exec : String → Except Exn TaskResult) (st : RunState)
    (name : String) :
    ∀ ev ∈ (execOne exec st name).2.2,
      ev = Event.dispatch name (dictKeys st.results) st.completed ∧
      ∀ d ∈ dictGetD st.deps name [], d ∈ dictKeys st.results := by
  cases hl : dictLookup st.tasks name with
  | none => simp [execOne, hl]
  | some task =>
      simp only [execOne, hl]
      by_cases hg : ((dictGetD st.deps name []).all fun d => dictContains st.results d) = true
      · rw [if_pos hg]
        have hdeps : ∀ d ∈ dictGetD st.deps name [], d ∈ dictKeys st.results := by
          intro d hd
          have := List.all_eq_true.mp hg d hd
          exact (dictContains_iff_mem st.results d).mp this
        cases he : exec name with
        | ok r => intro ev hev; simp at hev; exact ⟨hev, hdeps⟩
        | error e => intro ev hev; simp at hev; exact ⟨hev, hdeps⟩
      · rw [if_neg hg]
        simp

/-- If `execOne` returned a successful outcome, the task's result is
recorded. -/
theorem execOne_ok_recorded (exec : String → Except Exn TaskResult) (st : RunState)
    (name : String) (r : TaskResult) (h : (execOne exec st name).2.1 = Except.ok r) :
    dictLookup (execOne exec st name).1.results name = some r := by
  revert h
  cases hl : dictLookup st.tasks name with
  | none => simp only [execOne, hl]; intro h; cases h
  | some task =>
      simp only [execOne, hl]
      by_cases hg : ((dictGetD st.deps name []).all fun d => dictContains st.results d) = true
      · rw [if_pos hg]
        cases he : exec name with
        | ok r2 =>
            intro h
            have : r2 = r := by cases h; rfl
            subst this
            exact dictLookup_insert_self _ _ _
        | error e => intro h; cases h
      · rw [if_neg hg]
        intro h; cases h

/-- A result binding for a name other than the dispatched one is
untouched by `execOne`. -/
theorem execOne_results_lookup_other (exec : String → Except Exn TaskResult)
    (st : RunState) (name k : String) (h : ¬ name = k) :
    dictLookup (execOne exec st name).1.results k = dictLookup st.results k := by
  cases hl : dictLookup st.tasks name with
  | none => simp [execOne, hl]
  | some task =>
      simp only [execOne, hl]
      by_cases hg : ((dictGetD st.deps name []).all fun d => dictContains st.results d) = true
      · rw [if_pos hg]
        cases he : exec name with
        | ok r => exact dictLookup_insert_ne _ _ _ _ h
        | error e => rfl
      · rw [if_neg hg]

theorem execPhase_facts (exec : String → Except Exn TaskResult) :
    ∀ (names : List String) (st : RunState),
    (execPhase exec st names).1.groups = st.groups ∧
    (execPhase exec st names).1.deps = st.deps ∧
    (execPhase exec st names).1.dependents = st.dependents ∧
    (execPhase exec st names).1.completed = st.completed ∧
    dictKeys (execPhase exec st names).1.tasks = dictKeys st.tasks ∧
    (∀ k, k ∈ dictKeys (execPhase exec st names).1.results →
      k ∈ dictKeys st.results ∨ k ∈ names) ∧
    (∀ k, k ∈ dictKeys st.results → k ∈ dictKeys (execPhase exec st names).1.results) := by
  intro names
  induction names with
  | nil =>
      intro st
      exact ⟨rfl, rfl, rfl, rfl, rfl, fun k hk => Or.inl hk, fun k hk => hk⟩
  | cons n rest ih =>
      intro st
      simp only [execPhase]
      have h1 := execOne_facts exec st n
      have h2 := ih (execOne exec st n).1
      refine ⟨h2.1.trans h1.1, h2.2.1.trans h1.2.1, h2.2.2.1.trans h1.2.2.1,
        h2.2.2.2.1.trans h1.2.2.2.1, h2.2.2.2.2.1.trans h1.2.2.2.2.1, ?_, ?_⟩
      · intro k hk
        rcases h2.2.2.2.2.2.1 k hk with hk2 | hk2
        · rcases (h1.2.2.2.2.2 k).mp hk2 with hk3 | hk3
          · exact Or.inl hk3
          · exact Or.inr (by simp [hk3.2])
        · exact Or.inr (List.mem_cons_of_mem _ hk2)
      · intro k hk
        exact h2.2.2.2.2.2.2 k ((h1.2.2.2.2.2 k).mpr (Or.inl hk))

theorem execPhase_outcome_names (exec : String → Except Exn TaskResult) :
    ∀ (names : List String) (st : RunState),
    ((execPhase exec st names).2.1).map Prod.fst = names := by
  intro names
  induction names with
  | nil => intro st; rfl
  | cons n rest ih =>
      intro st
      simp only [execPhase, List.map_cons]
      rw [ih]

/-- After phase one, every successful outcome's task has exactly that
result recorded (the round's names are duplicate-free). -/
theorem execPhase_ok_recorded (exec : String → Except Exn TaskResult) :
    ∀ (names : List String) (st : RunState), names.Nodup →
    ∀ p ∈ (execPhase exec st names).2.1, ∀ r : TaskResult, p.2 = Except.ok r →
    dictLookup (execPhase exec st names).1.results p.1 = some r := by
  intro names
  induction names with
  | nil => intro st _ p hp; simp [execPhase] at hp
  | cons n rest ih =>
      intro st hnd p hp r hr
      simp only [execPhase] at hp ⊢
      rcases List.mem_cons.mp hp with h1 | h1
      · subst h1
        simp only at hr
        -- p = (n, outcome of execOne); its recording survives the rest
        have hrec := execOne_ok_recorded exec st n r hr
        have hnotin : n ∉ rest := (List.nodup_cons.mp hnd).1
        -- lookups of n are unchanged by the rest of the phase
        clear ih hp hnd
        revert hrec
        generalize (execOne exec st n).1 = st1
        revert hnotin
        clear hr
        induction rest generalizing st1 with
        | nil => intro _ h; exact h
        | cons m rest2 ih2 =>
            intro hnm hrec
            simp only [execPhase]
            refine ih2 _ (fun hc => hnm (List.mem_cons_of_mem _ hc)) ?_
            rw [execOne_results_lookup_other exec st1 m n
              (fun hc => hnm (hc ▸ List.mem_cons_self _ _))]
            exact hrec
      · exact ih (execOne exec st n).1 (List.nodup_cons.mp hnd).2 p h1 r hr

/-- Every event of phase one is a dispatch of one of the round's names,
whose snapshot already contains every recorded dependency of that name
and everything completed or recorded at the start of the phase. -/
theorem execPhase_events (exec : String → Except Exn TaskResult) :
    ∀ (names : List String) (st : RunState),
    ∀ ev ∈ (execPhase exec st names).2.2, ∃ n ks cs,
      n ∈ names ∧ ev = Event.dispatch n ks cs ∧
      (∀ d ∈ dictGetD st.deps n [], d ∈ ks) ∧
      cs = st.completed ∧
      (∀ k ∈ dictKeys st.results, k ∈ ks) := by
  intro names
  induction names with
  | nil => intro st ev hev; simp [execPhase] at hev
  | cons n rest ih =>
      intro st ev hev
      simp only [execPhase] at hev
      rcases List.mem_append.mp hev with h1 | h1
      · have h2 := execOne_events exec st n ev h1
        exact ⟨n, dictKeys st.results, st.completed, List.mem_cons_self _ _,
          h2.1, h2.2, rfl, fun k hk => hk⟩
      · have h3 := execOne_facts exec st n
        rcases ih (execOne exec st n).1 ev h1 with ⟨m, ks, cs, hm, hevm, hdeps, hcs, hks⟩
        refine ⟨m, ks, cs, List.mem_cons_of_mem _ hm, hevm, ?_, ?_, ?_⟩
        · rw [h3.2.1] at hdeps
          exact hdeps
        · rw [hcs, h3.2.2.2.1]
        · intro k hk
          exact hks k ((h3.2.2.2.2.2 k).mpr (Or.inl hk))

/-! ## Group-expansion lemmas -/

theorem expandGroups_facts (gexec : String → List Value → TaskResult) (name : String) :
    ∀ (gl : List (String × TaskGroup)) (st : RunState),
    (expandGroups gexec st name gl).2.state.groups = st.groups ∧
    (expandGroups gexec st name gl).2.state.deps = st.deps ∧
    (expandGroups gexec st name gl).2.state.dependents = st.dependents ∧
    (expandGroups gexec st name gl).2.state.completed = st.completed ∧
    dictKeys (expandGroups gexec st name gl).2.state.tasks = dictKeys st.tasks ∧
    (∀ k, k ∈ dictKeys st.results →
      k ∈ dictKeys (expandGroups gexec st name gl).2.state.results) ∧
    (∀ k, k ∈ dictKeys (expandGroups gexec st name gl).2.state.results →
      k ∈ dictKeys st.results ∨ k ∈ gl.map Prod.fst) := by
  intro gl
  induction gl with
  | nil =>
      intro st
      exact ⟨rfl, rfl, rfl, rfl, rfl, fun k hk => hk, fun k hk => Or.inl hk⟩
  | cons hd rest ih =>
      intro st
      obtain ⟨gname, grp⟩ := hd
      by_cases hmatch : ((pySplit grp.config.for_each ".").any fun seg => seg == name) = true
      · cases hl : dictLookup st.results name with
        | none =>
            simp only [expandGroups, if_pos hmatch, hl]
            exact ⟨rfl, rfl, rfl, rfl, rfl, fun k hk => hk, fun k hk => Or.inl hk⟩
        | some res =>
            cases hw : walkParts res.output (pySplit grp.config.for_each ".").tail with
            | none =>
                simp only [expandGroups, if_pos hmatch, hl, hw]
                exact ⟨rfl, rfl, rfl, rfl, rfl, fun k hk => hk, fun k hk => Or.inl hk⟩
            | some v =>
                cases ha : asListValue v with
                | none =>
                    simp only [expandGroups, if_pos hmatch, hl, hw, ha]
                    exact ⟨rfl, rfl, rfl, rfl, rfl, fun k hk => hk, fun k hk => Or.inl hk⟩
                | some items =>
                    simp only [expandGroups, if_pos hmatch, hl, hw, ha]
                    have hp := pushToDependents_facts
                      { st with results := dictInsert st.results gname (gexec gname items) }
                      gname (gexec gname items).output
                    have hrec := ih (pushToDependents
                      { st with results := dictInsert st.results gname (gexec gname items) }
                      gname (gexec gname items).output)
                    refine ⟨hrec.1.trans hp.1, hrec.2.1.trans hp.2.1,
                      hrec.2.2.1.trans hp.2.2.1,
                      hrec.2.2.2.1.trans hp.2.2.2.2.1,
                      hrec.2.2.2.2.1.trans hp.2.2.2.2.2, ?_, ?_⟩
                    · intro k hk
                      refine hrec.2.2.2.2.2.1 k ?_
                      rw [hp.2.2.2.1]
                      exact (mem_dictKeys_insert st.results gname _ k).mpr (Or.inr hk)
                    · intro k hk
                      rcases hrec.2.2.2.2.2.2 k hk with hk2 | hk2
                      · rw [hp.2.2.2.1] at hk2
                        rcases (mem_dictKeys_insert st.results gname _ k).mp hk2 with hk3 | hk3
                        · exact Or.inr (by simp [hk3])
                        · exact Or.inl hk3
                      · exact Or.inr (List.mem_cons_of_mem _ hk2)
      · simp only [expandGroups, if_neg hmatch]
        have hrec := ih st
        refine ⟨hrec.1, hrec.2.1, hrec.2.2.1, hrec.2.2.2.1, hrec.2.2.2.2.1,
          hrec.2.2.2.2.2.1, ?_⟩
        intro k hk
        rcases hrec.2.2.2.2.2.2 k hk with hk2 | hk2
        · exact Or.inl hk2
        · exact Or.inr (List.mem_cons_of_mem _ hk2)

/-- Every event of the group-expansion loop concerns a listed group and
the completed task at hand. -/
theorem expandGroups_events (gexec : String → List Value → TaskResult) (name : String) :
    ∀ (gl : List (String × TaskGroup)) (st : RunState),
    ∀ ev ∈ (expandGroups gexec st name gl).1, ∃ g, g ∈ gl.map Prod.fst ∧
      (ev = Event.triggered g name ∨ ev = Event.expanded g name ∨
       ev = Event.pathError g name) := by
  intro gl
  induction gl with
  | nil => intro st ev hev; simp [expandGroups] at hev
  | cons hd rest ih =>
      intro st ev hev
      obtain ⟨gname, grp⟩ := hd
      by_cases hmatch : ((pySplit grp.config.for_each ".").any fun seg => seg == name) = true
      · cases hl : dictLookup st.results name with
        | none =>
            simp only [expandGroups, if_pos hmatch, hl] at hev
            simp at hev
            exact ⟨gname, by simp, Or.inl hev⟩
        | some res =>
            cases hw : walkParts res.output (pySplit grp.config.for_each ".").tail with
            | none =>
                simp only [expandGroups, if_pos hmatch, hl, hw] at hev
                simp at hev
                rcases hev with hev | hev
                · exact ⟨gname, by simp, Or.inl hev⟩
                · exact ⟨gname, by simp, Or.inr (Or.inr hev)⟩
            | some v =>
                cases ha : asListValue v with
                | none =>
                    simp only [expandGroups, if_pos hmatch, hl, hw, ha] at hev
                    simp at hev
                    rcases hev with hev | hev
                    · exact ⟨gname, by simp, Or.inl hev⟩
                    · exact ⟨gname, by simp, Or.inr (Or.inr hev)⟩
                | some items =>
                    simp only [expandGroups, if_pos hmatch, hl, hw, ha] at hev
                    rcases List.mem_cons.mp hev with hev2 | hev2
                    · exact ⟨gname, by simp, Or.inl hev2⟩
                    · rcases List.mem_cons.mp hev2 with hev3 | hev3
                      · exact ⟨gname, by simp, Or.inr (Or.inl hev3)⟩
                      · rcases ih _ ev hev3 with ⟨g, hg, hor⟩
                        exact ⟨g, List.mem_cons_of_mem _ hg, hor⟩
      · simp only [expandGroups, if_neg hmatch] at hev
        rcases ih st ev hev with ⟨g, hg, hor⟩
        exact ⟨g, List.mem_cons_of_mem _ hg, hor⟩

/-- When the expansion loop runs to completion (no raise), a group is
entered exactly when some segment of its `for_each` equals the completed
task's name. -/
theorem expandGroups_triggered_iff (gexec : String → List Value → TaskResult)
    (name gname : String) :
    ∀ (gl : List (String × TaskGroup)) (st : RunState),
    (expandGroups gexec st name gl).2.isCont = true →
    (Event.triggered gname name ∈ (expandGroups gexec st name gl).1 ↔
      ∃ grp, (gname, grp) ∈ gl ∧
        ((pySplit grp.config.for_each ".").any fun seg => seg == name) = true) := by
  intro gl
  induction gl with
  | nil =>
      intro st _
      simp [expandGroups]
  | cons hd rest ih =>
      intro st hc
      obtain ⟨g0, grp0⟩ := hd
      by_cases hmatch : ((pySplit grp0.config.for_each ".").any fun seg => seg == name) = true
      · cases hl : dictLookup st.results name with
        | none =>
            exfalso
            simp only [expandGroups, if_pos hmatch, hl, StepRes.isCont] at hc
            cases hc
        | some res =>
            cases hw : walkParts res.output (pySplit grp0.config.for_each ".").tail with
            | none =>
                exfalso
                simp only [expandGroups, if_pos hmatch, hl, hw, StepRes.isCont] at hc
                cases hc
            | some v =>
                cases ha : asListValue v with
                | none =>
                    exfalso
                    simp only [expandGroups, if_pos hmatch, hl, hw, ha, StepRes.isCont] at hc
                    cases hc
                | some items =>
                    simp only [expandGroups, if_pos hmatch, hl, hw, ha] at hc ⊢
                    rw [List.mem_cons, List.mem_cons]
                    rw [ih _ hc]
                    constructor
                    · rintro (h1 | h1 | h1)
                      · injection h1 with hg hn
                        subst hg
                        exact ⟨grp0, List.mem_cons_self _ _, hmatch⟩
                      · exact absurd h1 (by simp)
                      · rcases h1 with ⟨grp, hgrp, hm⟩
                        exact ⟨grp, List.mem_cons_of_mem _ hgrp, hm⟩
                    · rintro ⟨grp, hgrp, hm⟩
                      rcases List.mem_cons.mp hgrp with h2 | h2
                      · exact Or.inl (by cases h2; rfl)
                      · exact Or.inr (Or.inr ⟨grp, h2, hm⟩)
      · simp only [expandGroups, if_neg hmatch] at hc ⊢
        rw [ih st hc]
        constructor
        · rintro ⟨grp, hgrp, hm⟩
          exact ⟨grp, List.mem_cons_of_mem _ hgrp, hm⟩
        · rintro ⟨grp, hgrp, hm⟩
          rcases List.mem_cons.mp hgrp with h2 | h2
          · exfalso
            apply hmatch
            have : grp = grp0 := by cases h2; rfl
            rw [← this]
            exact hm
          · exact ⟨grp, h2, hm⟩

/-- A recorded expansion leaves the group's aggregated result in
`results` (keys are never removed afterwards). -/
theorem expandGroups_expanded_recorded (gexec : String → List Value → TaskResult)
    (name gname : String) :
    ∀ (gl : List (String × TaskGroup)) (st : RunState),
    Event.expanded gname name ∈ (expandGroups gexec st name gl).1 →
    gname ∈ dictKeys (expandGroups gexec st name gl).2.state.results := by
  intro gl
  induction gl with
  | nil => intro st h; simp [expandGroups] at h
  | cons hd rest ih =>
      intro st hev
      obtain ⟨g0, grp0⟩ := hd
      by_cases hmatch : ((pySplit grp0.config.for_each ".").any fun seg => seg == name) = true
      · cases hl : dictLookup st.results name with
        | none =>
            simp only [expandGroups, if_pos hmatch, hl] at hev ⊢
            simp at hev
        | some res =>
            cases hw : walkParts res.output (pySplit grp0.config.for_each ".").tail with
            | none =>
                simp only [expandGroups, if_pos hmatch, hl, hw] at hev ⊢
                simp at hev
            | some v =>
                cases ha : asListValue v with
                | none =>
                    simp only [expandGroups, if_pos hmatch, hl, hw, ha] at hev ⊢
                    simp at hev
                | some items =>
                    simp only [expandGroups, if_pos hmatch, hl, hw, ha] at hev ⊢
                    rcases List.mem_cons.mp hev with h1 | h1
                    · exact absurd h1 (by simp)
                    · rcases List.mem_cons.mp h1 with h2 | h2
                      · injection h2 with hg hn
                        subst hg
                        -- recorded before the recursive call; keys only grow
                        have hf := expandGroups_facts gexec name rest
                          (pushToDependents
                            { st with results := dictInsert st.results gname (gexec gname items) }
                            gname (gexec gname items).output)
                        refine hf.2.2.2.2.2.1 gname ?_
                        have hp := pushToDependents_facts
                          { st with results := dictInsert st.results gname (gexec gname items) }
                          gname (gexec gname items).output
                        rw [hp.2.2.2.1]
                        exact (mem_dictKeys_insert st.results gname _ gname).mpr (Or.inl rfl)
                      · exact ih _ h2
      · simp only [expandGroups, if_neg hmatch] at hev ⊢
        exact ih st hev

/-- If the completed task has a recorded result, the expansion loop can
only raise a `ValueError`, and only after logging a path error. -/
theorem expandGroups_raise (gexec : String → List Value → TaskResult) (name : String) :
    ∀ (gl : List (String × TaskGroup)) (st : RunState),
    name ∈ dictKeys st.results →
    ∀ e st2, (expandGroups gexec st name gl).2 = StepRes.raise e st2 →
    (∃ msg, e = PyErr.valueError msg) ∧
    ∃ g, Event.pathError g name ∈ (expandGroups gexec st name gl).1 := by
  intro gl
  induction gl with
  | nil =>
      intro st _ e st2 h
      simp only [expandGroups] at h
      cases h
  | cons hd rest ih =>
      intro st hres e st2 hr
      obtain ⟨g0, grp0⟩ := hd
      by_cases hmatch : ((pySplit grp0.config.for_each ".").any fun seg => seg == name) = true
      · cases hl : dictLookup st.results name with
        | none =>
            exfalso
            have := (dictLookup_isSome_iff_mem st.results name).mpr hres
            rw [hl] at this
            cases this
        | some res =>
            cases hw : walkParts res.output (pySplit grp0.config.for_each ".").tail with
            | none =>
                simp only [expandGroups, if_pos hmatch, hl, hw] at hr ⊢
                cases hr
                exact ⟨⟨_, rfl⟩, g0, by simp⟩
            | some v =>
                cases ha : asListValue v with
                | none =>
                    simp only [expandGroups, if_pos hmatch, hl, hw, ha] at hr ⊢
                    cases hr
                    exact ⟨⟨_, rfl⟩, g0, by simp⟩
                | some items =>
                    simp only [expandGroups, if_pos hmatch, hl, hw, ha] at hr ⊢
                    have hres2 : name ∈ dictKeys (pushToDependents
                        { st with results := dictInsert st.results g0 (gexec g0 items) }
                        g0 (gexec g0 items).output).results := by
                      have hp := pushToDependents_facts
                        { st with results := dictInsert st.results g0 (gexec g0 items) }
                        g0 (gexec g0 items).output
                      rw [hp.2.2.2.1]
                      exact (mem_dictKeys_insert st.results g0 _ name).mpr (Or.inr hres)
                    rcases ih _ hres2 e st2 hr with ⟨hmsg, g, hg⟩
                    exact ⟨hmsg, g, by simp [hg]⟩
      · simp only [expandGroups, if_neg hmatch] at hr ⊢
        exact ih st hres e st2 hr

/-! ## Per-task post-round processing lemmas -/

theorem processOne_facts (gexec : String → List Value → TaskResult) (st : RunState)
    (name : String) (oc : Except Exn TaskResult) :
    (processOne gexec st name oc).2.state.groups = st.groups ∧
    (processOne gexec st name oc).2.state.deps = st.deps ∧
    (processOne gexec st name oc).2.state.dependents = st.dependents ∧
    (processOne gexec st name oc).2.state.completed = setAdd st.completed name ∧
    dictKeys (processOne gexec st name oc).2.state.tasks = dictKeys st.tasks ∧
    (∀ k, k ∈ dictKeys st.results →
      k ∈ dictKeys (processOne gexec st name oc).2.state.results) ∧
    (∀ k, k ∈ dictKeys (processOne gexec st name oc).2.state.results →
      k ∈ dictKeys st.results ∨ k = name ∨ k ∈ dictKeys st.groups) := by
  cases oc with
  | error e =>
      simp only [processOne]
      split
      · exact ⟨rfl, rfl, rfl, rfl, rfl,
          fun k hk => (mem_dictKeys_insert _ _ _ k).mpr (Or.inr hk),
          fun k hk => ((mem_dictKeys_insert _ _ _ k).mp hk).elim
            (fun h => Or.inr (Or.inl h)) Or.inl⟩
      · split
        · have hf := expandGroups_facts gexec name st.groups
            { st with
              results := dictInsert st.results name (TaskResult.mk false (Value.vdict []) (some e)),
              completed := setAdd st.completed name }
          refine ⟨hf.1, hf.2.1, hf.2.2.1, hf.2.2.2.1, hf.2.2.2.2.1, ?_, ?_⟩
          · intro k hk
            exact hf.2.2.2.2.2.1 k ((mem_dictKeys_insert _ _ _ k).mpr (Or.inr hk))
          · intro k hk
            rcases hf.2.2.2.2.2.2 k hk with hk2 | hk2
            · rcases (mem_dictKeys_insert _ _ _ k).mp hk2 with hk3 | hk3
              · exact Or.inr (Or.inl hk3)
              · exact Or.inl hk3
            · exact Or.inr (Or.inr (by simpa [dictKeys] using hk2))
        · exact ⟨rfl, rfl, rfl, rfl, rfl,
            fun k hk => (mem_dictKeys_insert _ _ _ k).mpr (Or.inr hk),
            fun k hk => ((mem_dictKeys_insert _ _ _ k).mp hk).elim
              (fun h => Or.inr (Or.inl h)) Or.inl⟩
  | ok r0 =>
      simp only [processOne]
      split
      · exact ⟨rfl, rfl, rfl, rfl, rfl, fun k hk => hk, fun k hk => Or.inl hk⟩
      · split
        · have hf := expandGroups_facts gexec name st.groups
            { st with completed := setAdd st.completed name }
          refine ⟨hf.1, hf.2.1, hf.2.2.1, hf.2.2.2.1, hf.2.2.2.2.1, ?_, ?_⟩
          · intro k hk
            exact hf.2.2.2.2.2.1 k hk
          · intro k hk
            rcases hf.2.2.2.2.2.2 k hk with hk2 | hk2
            · exact Or.inl hk2
            · exact Or.inr (Or.inr (by simpa [dictKeys] using hk2))
        · exact ⟨rfl, rfl, rfl, rfl, rfl, fun k hk => hk, fun k hk => Or.inl hk⟩

theorem processOne_events (gexec : String → List Value → TaskResult) (st : RunState)
    (name : String) (oc : Except Exn TaskResult) :
    ∀ ev ∈ (processOne gexec st name oc).1,
      ev = Event.completedAdd name ∨
      ∃ g, g ∈ dictKeys st.groups ∧
        (ev = Event.triggered g name ∨ ev = Event.expanded g name ∨
         ev = Event.pathError g name) := by
  cases oc with
  | error e =>
      simp only [processOne]
      split
      · intro ev hev; simp at hev; exact Or.inl hev
      · split
        · intro ev hev
          rcases List.mem_cons.mp hev with h1 | h1
          · exact Or.inl h1
          · rcases expandGroups_events gexec name st.groups _ ev h1 with ⟨g, hg, hor⟩
            exact Or.inr ⟨g, by simpa [dictKeys] using hg, hor⟩
        · intro ev hev; simp at hev; exact Or.inl hev
  | ok r0 =>
      simp only [processOne]
      split
      · intro ev hev; simp at hev; exact Or.inl hev
      · split
        · intro ev hev
          rcases List.mem_cons.mp hev with h1 | h1
          · exact Or.inl h1
          · rcases expandGroups_events gexec name st.groups _ ev h1 with ⟨g, hg, hor⟩
            exact Or.inr ⟨g, by simpa [dictKeys] using hg, hor⟩
        · intro ev hev; simp at hev; exact Or.inl hev

/-- Post-round processing of one task raises only the two `ValueError`s
of failed path resolution (a converted exception, or any task whose
result was recorded in phase one, always has `results[name]`). -/
theorem processOne_raise (gexec : String → List Value → TaskResult) (st : RunState)
    (name : String) (oc : Except Exn TaskResult)
    (hpre : isOkB oc = true → name ∈ dictKeys st.results) :
    ∀ e st2, (processOne gexec st name oc).2 = StepRes.raise e st2 →
    (∃ msg, e = PyErr.valueError msg) ∧
    ∃ g, Event.pathError g name ∈ (processOne gexec st name oc).1 := by
  cases oc with
  | error e0 =>
      simp only [processOne]
      split
      next hl =>
        exfalso
        have hmem : name ∈ dictKeys (dictInsert st.results name
            (TaskResult.mk false (Value.vdict []) (some e0))) :=
          (mem_dictKeys_insert _ _ _ name).mpr (Or.inl rfl)
        have h2 := (dictLookup_isSome_iff_mem _ name).mpr hmem
        rw [hl] at h2
        cases h2
      next res hl =>
        split
        · intro e st2 hr
          simp only at hr
          have hmem : name ∈ dictKeys ({ st with
            results := dictInsert st.results name (TaskResult.mk false (Value.vdict []) (some e0)),
            completed := setAdd st.completed name } : RunState).results :=
            (mem_dictKeys_insert _ _ _ name).mpr (Or.inl rfl)
          rcases expandGroups_raise gexec name st.groups _ hmem e st2 hr with ⟨hmsg, g, hg⟩
          exact ⟨hmsg, g, List.mem_cons_of_mem _ hg⟩
        · intro e st2 hr
          cases hr
  | ok r0 =>
      have hmem := hpre (by simp [isOkB])
      simp only [processOne]
      split
      next hl =>
        exfalso
        have h2 := (dictLookup_isSome_iff_mem st.results name).mpr hmem
        rw [hl] at h2
        cases h2
      next res hl =>
        split
        · intro e st2 hr
          simp only at hr
          have hmem2 : name ∈ dictKeys ({ st with
              completed := setAdd st.completed name } : RunState).results := hmem
          rcases expandGroups_raise gexec name st.groups _ hmem2 e st2 hr with ⟨hmsg, g, hg⟩
          exact ⟨hmsg, g, List.mem_cons_of_mem _ hg⟩
        · intro e st2 hr
          cases hr

theorem processOne_expanded_recorded (gexec : String → List Value → TaskResult)
    (st : RunState) (name : String) (oc : Except Exn TaskResult) (g t : String)
    (hev : Event.expanded g t ∈ (processOne gexec st name oc).1) :
    g ∈ dictKeys (processOne gexec st name oc).2.state.results := by
  have htn : ∀ (st3 : RunState), Event.expanded g t ∈ (expandGroups gexec st3 name st3.groups).1 →
      g ∈ dictKeys (expandGroups gexec st3 name st3.groups).2.state.results := by
    intro st3 hin
    rcases expandGroups_events gexec name st3.groups st3 _ hin with ⟨g2, hg2, hor⟩
    rcases hor with h | h | h
    · exact absurd h (by simp)
    · injection h with h1 h2
      subst h1; subst h2
      exact expandGroups_expanded_recorded gexec _ _ st3.groups st3 hin
    · exact absurd h (by simp)
  cases oc with
  | error e0 =>
      revert hev
      simp only [processOne]
      split
      · intro hev; simp at hev
      · split
        · intro hev
          rcases List.mem_cons.mp hev with h1 | h1
          · exact absurd h1 (by simp)
          · exact htn _ h1
        · intro hev; simp at hev
  | ok r0 =>
      revert hev
      simp only [processOne]
      split
      · intro hev; simp at hev
      · split
        · intro hev
          rcases List.mem_cons.mp hev with h1 | h1
          · exact absurd h1 (by simp)
          · exact htn _ h1
        · intro hev; simp at hev

theorem processPhase_facts (gexec : String → List Value → TaskResult) :
    ∀ (ocs : List (String × Except Exn TaskResult)) (st : RunState),
    (processPhase gexec st ocs).2.state.groups = st.groups ∧
    (processPhase gexec st ocs).2.state.deps = st.deps ∧
    (processPhase gexec st ocs).2.state.dependents = st.dependents ∧
    dictKeys (processPhase gexec st ocs).2.state.tasks = dictKeys st.tasks ∧
    (∀ k, k ∈ dictKeys st.results →
      k ∈ dictKeys (processPhase gexec st ocs).2.state.results) ∧
    (∀ k, k ∈ dictKeys (processPhase gexec st ocs).2.state.results →
      k ∈ dictKeys st.results ∨ k ∈ ocs.map Prod.fst ∨ k ∈ dictKeys st.groups) ∧
    (∀ c, c ∈ st.completed → c ∈ (processPhase gexec st ocs).2.state.completed) ∧
    (∀ c, c ∈ (processPhase gexec st ocs).2.state.completed →
      c ∈ st.completed ∨ c ∈ ocs.map Prod.fst) := by
  intro ocs
  induction ocs with
  | nil =>
      intro st
      exact ⟨rfl, rfl, rfl, rfl, fun k hk => hk, fun k hk => Or.inl hk,
        fun c hc => hc, fun c hc => Or.inl hc⟩
  | cons hd rest ih =>
      intro st
      obtain ⟨name, oc⟩ := hd
      have po := processOne_facts gexec st name oc
      cases hpo : (processOne gexec st name oc).2 with
      | cont st1 =>
          rw [hpo] at po
          simp only [StepRes.state] at po
          have hr := ih st1
          simp only [processPhase, hpo]
          refine ⟨hr.1.trans po.1, hr.2.1.trans po.2.1, hr.2.2.1.trans po.2.2.1,
            hr.2.2.2.1.trans po.2.2.2.2.1, ?_, ?_, ?_, ?_⟩
          · intro k hk
            exact hr.2.2.2.2.1 k (po.2.2.2.2.2.1 k hk)
          · intro k hk
            rcases hr.2.2.2.2.2.1 k hk with hk2 | hk2 | hk2
            · rcases po.2.2.2.2.2.2 k hk2 with hk3 | hk3 | hk3
              · exact Or.inl hk3
              · exact Or.inr (Or.inl (by simp [hk3]))
              · exact Or.inr (Or.inr hk3)
            · exact Or.inr (Or.inl (by simp [hk2]))
            · rw [po.1] at hk2
              exact Or.inr (Or.inr hk2)
          · intro c hc
            refine hr.2.2.2.2.2.2.1 c ?_
            rw [po.2.2.2.1]
            exact (mem_setAdd _ _ _).mpr (Or.inr hc)
          · intro c hc
            rcases hr.2.2.2.2.2.2.2 c hc with hc2 | hc2
            · rw [po.2.2.2.1] at hc2
              rcases (mem_setAdd _ _ _).mp hc2 with hc3 | hc3
              · exact Or.inr (by simp [hc3])
              · exact Or.inl hc3
            · exact Or.inr (by simp [hc2])
      | halt st1 =>
          rw [hpo] at po
          simp only [StepRes.state] at po
          simp only [processPhase, hpo]
          simp only [StepRes.state]
          refine ⟨po.1, po.2.1, po.2.2.1, po.2.2.2.2.1, po.2.2.2.2.2.1, ?_, ?_, ?_⟩
          · intro k hk
            rcases po.2.2.2.2.2.2 k hk with hk2 | hk2 | hk2
            · exact Or.inl hk2
            · exact Or.inr (Or.inl (by simp [hk2]))
            · exact Or.inr (Or.inr hk2)
          · intro c hc
            rw [po.2.2.2.1]
            exact (mem_setAdd _ _ _).mpr (Or.inr hc)
          · intro c hc
            rw [po.2.2.2.1] at hc
            rcases (mem_setAdd _ _ _).mp hc with hc2 | hc2
            · exact Or.inr (by simp [hc2])
            · exact Or.inl hc2
      | raise e st1 =>
          rw [hpo] at po
          simp only [StepRes.state] at po
          simp only [processPhase, hpo]
          simp only [StepRes.state]
          refine ⟨po.1, po.2.1, po.2.2.1, po.2.2.2.2.1, po.2.2.2.2.2.1, ?_, ?_, ?_⟩
          · intro k hk
            rcases po.2.2.2.2.2.2 k hk with hk2 | hk2 | hk2
            · exact Or.inl hk2
            · exact Or.inr (Or.inl (by simp [hk2]))
            · exact Or.inr (Or.inr hk2)
          · intro c hc
            rw [po.2.2.2.1]
            exact (mem_setAdd _ _ _).mpr (Or.inr hc)
          · intro c hc
            rw [po.2.2.2.1] at hc
            rcases (mem_setAdd _ _ _).mp hc with hc2 | hc2
            · exact Or.inr (by simp [hc2])
            · exact Or.inl hc2

/-- When the whole round is processed without halt or raise, the
completed set grows by exactly the round's names, in order. -/
theorem processPhase_cont_completed (gexec : String → List Value → TaskResult) :
    ∀ (ocs : List (String × Except Exn TaskResult)) (st st2 : RunState),
    (∀ n ∈ ocs.map Prod.fst, n ∉ st.completed) →
    (ocs.map Prod.fst).Nodup →
    (processPhase gexec st ocs).2 = StepRes.cont st2 →
    st2.completed = st.completed ++ ocs.map Prod.fst := by
  intro ocs
  induction ocs with
  | nil =>
      intro st st2 _ _ h
      simp only [processPhase] at h
      cases h
      simp
  | cons hd rest ih =>
      intro st st2 hdisj hnd h
      obtain ⟨name, oc⟩ := hd
      have po := processOne_facts gexec st name oc
      cases hpo : (processOne gexec st name oc).2 with
      | cont st1 =>
          rw [hpo] at po
          simp only [StepRes.state] at po
          simp only [processPhase, hpo] at h
          have hc1 : st1.completed = st.completed ++ [name] := by
            rw [po.2.2.2.1]
            simp only [setAdd]
            rw [if_neg ?_]
            intro hc
            exact hdisj name (by simp) (by simpa using hc)
          have hrec := ih st1 st2 ?_ ?_ h
          · rw [hrec, hc1]
            simp
          · intro n hn
            rw [hc1]
            intro hmem
            rcases List.mem_append.mp hmem with h2 | h2
            · exact hdisj n (by simp [hn]) h2
            · have : n = name := by simpa using h2
              subst this
              exact (List.nodup_cons.mp (by simpa using hnd)).1 hn
          · exact (List.nodup_cons.mp (by simpa using hnd)).2
      | halt st1 =>
          simp only [processPhase, hpo] at h
          cases h
      | raise e st1 =>
          simp only [processPhase, hpo] at h
          cases h

/-- If every successful phase-one outcome has its result recorded, the
post-round loop can only raise a path-resolution `ValueError`, and logs
a path error when it does. -/
theorem processPhase_raise (gexec : String → List Value → TaskResult) :
    ∀ (ocs : List (String × Except Exn TaskResult)) (st : RunState),
    (∀ p ∈ ocs, isOkB p.2 = true → p.1 ∈ dictKeys st.results) →
    ∀ e st2, (processPhase gexec st ocs).2 = StepRes.raise e st2 →
    (∃ msg, e = PyErr.valueError msg) ∧
    ∃ g t, Event.pathError g t ∈ (processPhase gexec st ocs).1 := by
  intro ocs
  induction ocs with
  | nil =>
      intro st _ e st2 h
      simp only [processPhase] at h
      cases h
  | cons hd rest ih =>
      intro st hok e st2 h
      obtain ⟨name, oc⟩ := hd
      have po := processOne_facts gexec st name oc
      cases hpo : (processOne gexec st name oc).2 with
      | cont st1 =>
          rw [hpo] at po
          simp only [StepRes.state] at po
          simp only [processPhase, hpo] at h ⊢
          have hok2 : ∀ p ∈ rest, isOkB p.2 = true → p.1 ∈ dictKeys st1.results := by
            intro p hp hisok
            exact po.2.2.2.2.2.1 p.1 (hok p (List.mem_cons_of_mem _ hp) hisok)
          rcases ih st1 hok2 e st2 h with ⟨hmsg, g, t, hg⟩
          exact ⟨hmsg, g, t, List.mem_append_right _ hg⟩
      | halt st1 =>
          simp only [processPhase, hpo] at h
          cases h
      | raise e0 st1 =>
          simp only [processPhase, hpo] at h
          injection h with h1 h2
          subst h1
          have hpre : isOkB oc = true → name ∈ dictKeys st.results :=
            fun hisok => hok (name, oc) (List.mem_cons_self _ _) hisok
          rcases processOne_raise gexec st name oc hpre e0 st1 hpo with ⟨hmsg, g, hg⟩
          exact ⟨hmsg, g, name, by simpa [processPhase, hpo] using hg⟩

/-- A group expansion recorded during the round leaves the group's name
in `results` at the end of the round's processing. -/
theorem processPhase_expanded_recorded (gexec : String → List Value → TaskResult) :
    ∀ (ocs : List (String × Except Exn TaskResult)) (st : RunState) (g t : String),
    Event.expanded g t ∈ (processPhase gexec st ocs).1 →
    g ∈ dictKeys (processPhase gexec st ocs).2.state.results := by
  intro ocs
  induction ocs with
  | nil => intro st g t h; simp [processPhase] at h
  | cons hd rest ih =>
      intro st g t hev
      obtain ⟨name, oc⟩ := hd
      have po := processOne_facts gexec st name oc
      cases hpo : (processOne gexec st name oc).2 with
      | cont st1 =>
          rw [hpo] at po
          simp only [StepRes.state] at po
          simp only [processPhase, hpo] at hev ⊢
          rcases List.mem_append.mp hev with h1 | h1
          · have h2 := processOne_expanded_recorded gexec st name oc g t h1
            rw [hpo] at h2
            simp only [StepRes.state] at h2
            exact (processPhase_facts gexec rest st1).2.2.2.2.1 g h2
          · exact ih st1 g t h1
      | halt st1 =>
          simp only [processPhase, hpo] at hev ⊢
          have h2 := processOne_expanded_recorded gexec st name oc g t hev
          rw [hpo] at h2
          simpa [StepRes.state] using h2
      | raise e st1 =>
          simp only [processPhase, hpo] at hev ⊢
          have h2 := processOne_expanded_recorded gexec st name oc g t hev
          rw [hpo] at h2
          simpa [StepRes.state] using h2

theorem processPhase_events (gexec : String → List Value → TaskResult) :
    ∀ (ocs : List (String × Except Exn TaskResult)) (st : RunState),
    ∀ ev ∈ (processPhase gexec st ocs).1,
      (∃ n, n ∈ ocs.map Prod.fst ∧ ev = Event.completedAdd n) ∨
      (∃ g t, g ∈ dictKeys st.groups ∧ t ∈ ocs.map Prod.fst ∧
        (ev = Event.triggered g t ∨ ev = Event.expanded g t ∨
         ev = Event.pathError g t)) := by
  intro ocs
  induction ocs with
  | nil => intro st ev h; simp [processPhase] at h
  | cons hd rest ih =>
      intro st ev hev
      obtain ⟨name, oc⟩ := hd
      have po := processOne_facts gexec st name oc
      have hpe := processOne_events gexec st name oc
      cases hpo : (processOne gexec st name oc).2 with
      | cont st1 =>
          rw [hpo] at po
          simp only [StepRes.state] at po
          simp only [processPhase, hpo] at hev
          rcases List.mem_append.mp hev with h1 | h1
          · rcases hpe ev h1 with h2 | ⟨g, hg, hor⟩
            · exact Or.inl ⟨name, by simp, h2⟩
            · exact Or.inr ⟨g, name, hg, by simp, hor⟩
          · rcases ih st1 ev h1 with ⟨n, hn, hevn⟩ | ⟨g, t, hg, ht, hor⟩
            · exact Or.inl ⟨n, List.mem_cons_of_mem _ (by simpa using hn), hevn⟩
            · rw [po.1] at hg
              exact Or.inr ⟨g, t, hg, List.mem_cons_of_mem _ (by simpa using ht), hor⟩
      | halt st1 =>
          simp only [processPhase, hpo] at hev
          rcases hpe ev hev with h2 | ⟨g, hg, hor⟩
          · exact Or.inl ⟨name, by simp, h2⟩
          · exact Or.inr ⟨g, name, hg, by simp, hor⟩
      | raise e st1 =>
          simp only [processPhase, hpo] at hev
          rcases hpe ev hev with h2 | ⟨g, hg, hor⟩
          · exact Or.inl ⟨name, by simp, h2⟩
          · exact Or.inr ⟨g, name, hg, by simp, hor⟩

/-! ## Run-loop lemmas -/

/-- Names selected for execution are ready task names, and conversely
(the membership filter of line 198 keeps every ready name, since ready
names come from the task map). -/
theorem toExec_eq_ready (st : RunState) :
    (get_ready_tasks st).filter (fun n => dictContains st.tasks n) =
      get_ready_tasks st := by
  apply List.filter_eq_self.mpr
  intro n hn
  exact (dictContains_iff_mem st.tasks n).mpr ((mem_get_ready_tasks st n).mp hn).1

theorem runLoop_facts (exec : String → Except Exn TaskResult)
    (gexec : String → List Value → TaskResult) :
    ∀ (fuel : Nat) (st : RunState),
    (runLoop exec gexec fuel st).2.2.groups = st.groups ∧
    (runLoop exec gexec fuel st).2.2.deps = st.deps ∧
    (runLoop exec gexec fuel st).2.2.dependents = st.dependents ∧
    dictKeys (runLoop exec gexec fuel st).2.2.tasks = dictKeys st.tasks ∧
    (∀ k, k ∈ dictKeys st.results →
      k ∈ dictKeys (runLoop exec gexec fuel st).2.2.results) ∧
    (∀ c, c ∈ st.completed → c ∈ (runLoop exec gexec fuel st).2.2.completed) ∧
    (∀ c, c ∈ (runLoop exec gexec fuel st).2.2.completed →
      c ∈ st.completed ∨ c ∈ dictKeys st.tasks) := by
  intro fuel
  induction fuel with
  | zero =>
      intro st
      exact ⟨rfl, rfl, rfl, rfl, fun k hk => hk, fun c hc => hc, fun c hc => Or.inl hc⟩
  | succ fuel ih =>
      intro st
      simp only [runLoop]
      by_cases hready : (get_ready_tasks st).isEmpty = true
      · rw [if_pos hready]
        exact ⟨rfl, rfl, rfl, rfl, fun k hk => hk, fun c hc => hc, fun c hc => Or.inl hc⟩
      · rw [if_neg hready]
        rw [toExec_eq_ready st]
        rw [if_neg hready]
        have p1 := execPhase_facts exec (get_ready_tasks st) st
        have hnames := execPhase_outcome_names exec (get_ready_tasks st) st
        have p2 := processPhase_facts gexec ((execPhase exec st (get_ready_tasks st)).2.1)
          ((execPhase exec st (get_ready_tasks st)).1)
        have hround : ∀ c, c ∈ ((execPhase exec st (get_ready_tasks st)).2.1).map Prod.fst →
            c ∈ dictKeys st.tasks := by
          intro c hc
          rw [hnames] at hc
          exact ((mem_get_ready_tasks st c).mp hc).1
        split
        next st2 heq =>
          -- cont: recurse
          have hr := ih st2
          rw [heq] at p2
          simp only [StepRes.state] at p2
          refine ⟨hr.1.trans (p2.1.trans p1.1),
            hr.2.1.trans (p2.2.1.trans p1.2.1),
            hr.2.2.1.trans (p2.2.2.1.trans p1.2.2.1),
            hr.2.2.2.1.trans (p2.2.2.2.1.trans p1.2.2.2.2.1), ?_, ?_, ?_⟩
          · intro k hk
            exact hr.2.2.2.2.1 k (p2.2.2.2.2.1 k (p1.2.2.2.2.2.2 k hk))
          · intro c hc
            refine hr.2.2.2.2.2.1 c (p2.2.2.2.2.2.2.1 c ?_)
            rw [p1.2.2.2.1]
            exact hc
          · intro c hc
            rcases hr.2.2.2.2.2.2 c hc with hc2 | hc2
            · rcases p2.2.2.2.2.2.2.2 c hc2 with hc3 | hc3
              · rw [p1.2.2.2.1] at hc3
                exact Or.inl hc3
              · exact Or.inr (hround c hc3)
            · rw [p2.2.2.2.1, p1.2.2.2.2.1] at hc2
              exact Or.inr hc2
        next st2 heq =>
          -- halt
          rw [heq] at p2
          simp only [StepRes.state] at p2
          refine ⟨p2.1.trans p1.1, p2.2.1.trans p1.2.1, p2.2.2.1.trans p1.2.2.1,
            p2.2.2.2.1.trans p1.2.2.2.2.1, ?_, ?_, ?_⟩
          · intro k hk
            exact p2.2.2.2.2.1 k (p1.2.2.2.2.2.2 k hk)
          · intro c hc
            refine p2.2.2.2.2.2.2.1 c ?_
            rw [p1.2.2.2.1]
            exact hc
          · intro c hc
            rcases p2.2.2.2.2.2.2.2 c hc with hc2 | hc2
            · rw [p1.2.2.2.1] at hc2
              exact Or.inl hc2
            · exact Or.inr (hround c hc2)
        next e st2 heq =>
          -- raise
          rw [heq] at p2
          simp only [StepRes.state] at p2
          refine ⟨p2.1.trans p1.1, p2.2.1.trans p1.2.1, p2.2.2.1.trans p1.2.2.1,
            p2.2.2.2.1.trans p1.2.2.2.2.1, ?_, ?_, ?_⟩
          · intro k hk
            exact p2.2.2.2.2.1 k (p1.2.2.2.2.2.2 k hk)
          · intro c hc
            refine p2.2.2.2.2.2.2.1 c ?_
            rw [p1.2.2.2.1]
            exact hc
          · intro c hc
            rcases p2.2.2.2.2.2.2.2 c hc with hc2 | hc2
            · rw [p1.2.2.2.1] at hc2
              exact Or.inl hc2
            · exact Or.inr (hround c hc2)

/-- Every task the round's processing marks completed has a recorded
result: a raised execution is converted and recorded on the spot, a
returned result was recorded during phase one. -/
theorem processPhase_completed_in_results (gexec : String → List Value → TaskResult) :
    ∀ (ocs : List (String × Except Exn TaskResult)) (st : RunState),
    (∀ c ∈ st.completed, c ∈ dictKeys st.results) →
    (∀ p ∈ ocs, isOkB p.2 = true → p.1 ∈ dictKeys st.results) →
    ∀ c ∈ (processPhase gexec st ocs).2.state.completed,
      c ∈ dictKeys (processPhase gexec st ocs).2.state.results := by
  intro ocs
  induction ocs with
  | nil =>
      intro st hinv _ c hc
      exact hinv c hc
  | cons hd rest ih =>
      intro st hinv hok c hc
      obtain ⟨name, oc⟩ := hd
      have po := processOne_facts gexec st name oc
      have hname : isOkB oc = true → name ∈ dictKeys st.results :=
        fun h => hok (name, oc) (List.mem_cons_self _ _) h
      -- after processing the head, name has a recorded result
      have hnm : name ∈ dictKeys (processOne gexec st name oc).2.state.results := by
        cases oc with
        | error e =>
            have hk : name ∈ dictKeys (dictInsert st.results name
                (TaskResult.mk false (Value.vdict []) (some e))) :=
              (mem_dictKeys_insert _ _ _ name).mpr (Or.inl rfl)
            revert hk
            simp only [processOne]
            split
            · intro hk; exact hk
            · split
              · intro hk
                have hf := expandGroups_facts gexec name st.groups
                  { st with
                    results := dictInsert st.results name
                      (TaskResult.mk false (Value.vdict []) (some e)),
                    completed := setAdd st.completed name }
                exact hf.2.2.2.2.2.1 name hk
              · intro hk; exact hk
        | ok r0 =>
            have hk := hname (by simp [isOkB])
            revert hk
            simp only [processOne]
            split
            · intro hk; exact hk
            · split
              · intro hk
                have hf := expandGroups_facts gexec name st.groups
                  { st with completed := setAdd st.completed name }
                exact hf.2.2.2.2.2.1 name hk
              · intro hk; exact hk
      have hinv1 : ∀ c2 ∈ (processOne gexec st name oc).2.state.completed,
          c2 ∈ dictKeys (processOne gexec st name oc).2.state.results := by
        intro c2 hc2
        rw [po.2.2.2.1] at hc2
        rcases (mem_setAdd _ _ _).mp hc2 with h2 | h2
        · subst h2; exact hnm
        · exact po.2.2.2.2.2.1 c2 (hinv c2 h2)
      cases hpo : (processOne gexec st name oc).2 with
      | cont st1 =>
          rw [hpo] at po hinv1 hnm
          simp only [StepRes.state] at po hinv1 hnm
          simp only [processPhase, hpo] at hc ⊢
          refine ih st1 hinv1 ?_ c hc
          intro p hp hisok
          exact po.2.2.2.2.2.1 p.1 (hok p (List.mem_cons_of_mem _ hp) hisok)
      | halt st1 =>
          rw [hpo] at hinv1
          simp only [StepRes.state] at hinv1
          simp only [processPhase, hpo] at hc ⊢
          simp only [StepRes.state]
          exact hinv1 c (by simpa [StepRes.state] using hc)
      | raise e st1 =>
          rw [hpo] at hinv1
          simp only [StepRes.state] at hinv1
          simp only [processPhase, hpo] at hc ⊢
          simp only [StepRes.state]
          exact hinv1 c (by simpa [StepRes.state] using hc)

theorem runLoop_completed_in_results (exec : String → Except Exn TaskResult)
    (gexec : String → List Value → TaskResult) :
    ∀ (fuel : Nat) (st : RunState),
    (∀ c ∈ st.completed, c ∈ dictKeys st.results) →
    ∀ c ∈ (runLoop exec gexec fuel st).2.2.completed,
      c ∈ dictKeys (runLoop exec gexec fuel st).2.2.results := by
  intro fuel
  induction fuel with
  | zero => intro st hinv c hc; exact hinv c hc
  | succ fuel ih =>
      intro st hinv
      simp only [runLoop]
      by_cases hready : (get_ready_tasks st).isEmpty = true
      · rw [if_pos hready]; exact hinv
      · rw [if_neg hready, toExec_eq_ready st, if_neg hready]
        have p1 := execPhase_facts exec (get_ready_tasks st) st
        have hoknd := get_ready_tasks_nodup st
        have hokrec := execPhase_ok_recorded exec (get_ready_tasks st) st hoknd
        have hok : ∀ p ∈ (execPhase exec st (get_ready_tasks st)).2.1,
            isOkB p.2 = true → p.1 ∈ dictKeys (execPhase exec st (get_ready_tasks st)).1.results := by
          intro p hp hisok
          cases hoc : p.2 with
          | error e => rw [hoc] at hisok; simp [isOkB] at hisok
          | ok r =>
              exact dictLookup_mem_of_some _ _ _ (hokrec p hp r hoc)
        have hinv1 : ∀ c ∈ (execPhase exec st (get_ready_tasks st)).1.completed,
            c ∈ dictKeys (execPhase exec st (get_ready_tasks st)).1.results := by
          intro c hc
          rw [p1.2.2.2.1] at hc
          exact p1.2.2.2.2.2.2 c (hinv c hc)
        have hpp := processPhase_completed_in_results gexec
          ((execPhase exec st (get_ready_tasks st)).2.1)
          ((execPhase exec st (get_ready_tasks st)).1) hinv1 hok
        split
        next st2 heq =>
            rw [heq] at hpp
            simp only [StepRes.state] at hpp
            exact ih st2 hpp
        next st2 heq =>
            rw [heq] at hpp
            simpa [StepRes.state] using hpp
        next e st2 heq =>
            rw [heq] at hpp
            simpa [StepRes.state] using hpp

/-- The run loop can only end by raising a path-resolution `ValueError`,
and in that case a path error has been logged. -/
theorem runLoop_raise (exec : String → Except Exn TaskResult)
    (gexec : String → List Value → TaskResult) :
    ∀ (fuel : Nat) (st : RunState) (e : PyErr),
    (runLoop exec gexec fuel st).2.1 = Outcome.raised e →
    (∃ msg, e = PyErr.valueError msg) ∧
    ∃ g t, Event.pathError g t ∈ (runLoop exec gexec fuel st).1 := by
  intro fuel
  induction fuel with
  | zero => intro st e h; cases h
  | succ fuel ih =>
      intro st e h
      revert h
      simp only [runLoop]
      by_cases hready : (get_ready_tasks st).isEmpty = true
      · rw [if_pos hready]; intro h; cases h
      · rw [if_neg hready, toExec_eq_ready st, if_neg hready]
        have hoknd := get_ready_tasks_nodup st
        have hokrec := execPhase_ok_recorded exec (get_ready_tasks st) st hoknd
        have hok : ∀ p ∈ (execPhase exec st (get_ready_tasks st)).2.1,
            isOkB p.2 = true → p.1 ∈ dictKeys (execPhase exec st (get_ready_tasks st)).1.results := by
          intro p hp hisok
          cases hoc : p.2 with
          | error e2 => rw [hoc] at hisok; simp [isOkB] at hisok
          | ok r => exact dictLookup_mem_of_some _ _ _ (hokrec p hp r hoc)
        split
        next st2 heq =>
            intro h
            rcases ih st2 e h with ⟨hmsg, g, t, hg⟩
            refine ⟨hmsg, g, t, ?_⟩
            simp [hg]
        next st2 heq =>
            intro h; cases h
        next e2 st2 heq =>
            intro h
            have h3 : e2 = e := by simpa using h
            subst h3
            rcases processPhase_raise gexec _ _ hok e2 st2 heq with ⟨hmsg, g, t, hg⟩
            refine ⟨hmsg, g, t, ?_⟩
            simp [hg]

/-- The fuel counter never runs out when it exceeds the number of
not-yet-completed tasks: every round that does not terminate the run
completes at least one new task. -/
theorem runLoop_no_fuelOut (exec : String → Except Exn TaskResult)
    (gexec : String → List Value → TaskResult) :
    ∀ (fuel : Nat) (st : RunState),
    (dictKeys st.tasks).Nodup → st.completed.Nodup →
    (∀ c ∈ st.completed, c ∈ dictKeys st.tasks) →
    (dictKeys st.tasks).length < fuel + st.completed.length →
    (runLoop exec gexec fuel st).2.1 ≠ Outcome.fuelOut := by
  intro fuel
  induction fuel with
  | zero =>
      intro st hknd hcnd hsub hlen
      exfalso
      have hle : st.completed.length ≤ (dictKeys st.tasks).length :=
        List.Subperm.length_le (List.subperm_of_subset hcnd hsub)
      omega
  | succ fuel ih =>
      intro st hknd hcnd hsub hlen
      simp only [runLoop]
      by_cases hready : (get_ready_tasks st).isEmpty = true
      · rw [if_pos hready]
        intro h; cases h
      · rw [if_neg hready, toExec_eq_ready st, if_neg hready]
        have p1 := execPhase_facts exec (get_ready_tasks st) st
        have hnames := execPhase_outcome_names exec (get_ready_tasks st) st
        split
        next st2 heq =>
          -- a full round was processed; completed grew by the whole round
          have hdisj : ∀ n ∈ ((execPhase exec st (get_ready_tasks st)).2.1).map Prod.fst,
              n ∉ (execPhase exec st (get_ready_tasks st)).1.completed := by
            intro n hn
            rw [hnames] at hn
            rw [p1.2.2.2.1]
            exact ((mem_get_ready_tasks st n).mp hn).2.1
          have hnd2 : (((execPhase exec st (get_ready_tasks st)).2.1).map Prod.fst).Nodup := by
            rw [hnames]; exact get_ready_tasks_nodup st
          have hc2 := processPhase_cont_completed gexec _ _ st2 hdisj hnd2 heq
          rw [p1.2.2.2.1, hnames] at hc2
          have hkeys2 : dictKeys st2.tasks = dictKeys st.tasks := by
            have p2 := processPhase_facts gexec ((execPhase exec st (get_ready_tasks st)).2.1)
              ((execPhase exec st (get_ready_tasks st)).1)
            rw [heq] at p2
            simp only [StepRes.state] at p2
            exact p2.2.2.2.1.trans p1.2.2.2.2.1
          have hrnonempty : get_ready_tasks st ≠ [] := by
            intro hc; rw [hc] at hready; exact hready rfl
          have hrlen : 1 ≤ (get_ready_tasks st).length :=
            Nat.one_le_iff_ne_zero.mpr (fun hc => hrnonempty (List.length_eq_zero.mp hc))
          have hrsub : ∀ n ∈ get_ready_tasks st, n ∈ dictKeys st.tasks :=
            fun n hn => ((mem_get_ready_tasks st n).mp hn).1
          have hdisj2 : ∀ n ∈ get_ready_tasks st, n ∉ st.completed :=
            fun n hn => ((mem_get_ready_tasks st n).mp hn).2.1
          refine ih st2 (by rw [hkeys2]; exact hknd) ?_ ?_ ?_
          · rw [hc2]
            rw [List.nodup_append]
            exact ⟨hcnd, get_ready_tasks_nodup st,
              fun a ha hb => hdisj2 a hb ha⟩
          · intro c hc
            rw [hc2] at hc
            rw [hkeys2]
            rcases List.mem_append.mp hc with h2 | h2
            · exact hsub c h2
            · exact hrsub c h2
          · rw [hkeys2, hc2, List.length_append]
            omega
        next st2 heq =>
          intro h; cases h
        next e st2 heq =>
          intro h; cases h

/-- Every logged ready set is the readiness selector's output at a loop
state whose maps agree with the initial ones and whose completed set
only adds task names. -/
theorem runLoop_ready_events (exec : String → Except Exn TaskResult)
    (gexec : String → List Value → TaskResult) :
    ∀ (fuel : Nat) (st : RunState) (rl : List String),
    Event.roundReady rl ∈ (runLoop exec gexec fuel st).1 →
    ∃ sti : RunState, rl = get_ready_tasks sti ∧ sti.deps = st.deps ∧
      dictKeys sti.tasks = dictKeys st.tasks ∧
      (∀ c ∈ sti.completed, c ∈ st.completed ∨ c ∈ dictKeys st.tasks) := by
  intro fuel
  induction fuel with
  | zero => intro st rl h; simp [runLoop] at h
  | succ fuel ih =>
      intro st rl h
      revert h
      simp only [runLoop]
      by_cases hready : (get_ready_tasks st).isEmpty = true
      · rw [if_pos hready]
        intro h
        simp at h
        exact ⟨st, h, rfl, rfl, fun c hc => Or.inl hc⟩
      · rw [if_neg hready, toExec_eq_ready st, if_neg hready]
        have p1 := execPhase_facts exec (get_ready_tasks st) st
        have hnames := execPhase_outcome_names exec (get_ready_tasks st) st
        have hp1ev := execPhase_events exec (get_ready_tasks st) st
        have hp2ev := processPhase_events gexec ((execPhase exec st (get_ready_tasks st)).2.1)
          ((execPhase exec st (get_ready_tasks st)).1)
        have hstep : ∀ c, c ∈ ((execPhase exec st (get_ready_tasks st)).2.1).map Prod.fst →
            c ∈ dictKeys st.tasks := by
          intro c hc
          rw [hnames] at hc
          exact ((mem_get_ready_tasks st c).mp hc).1
        split
        next st2 heq =>
          intro h
          rcases List.mem_cons.mp h with h1 | h1
          · injection h1 with h2
            exact ⟨st, h2, rfl, rfl, fun c hc => Or.inl hc⟩
          · rcases List.mem_append.mp h1 with h2 | h2
            · rcases List.mem_append.mp h2 with h3 | h3
              · rcases hp1ev _ h3 with ⟨n, ks, cs, _, hev, _⟩
                cases hev
              · rcases hp2ev _ h3 with ⟨n, _, hev⟩ | ⟨g, t, _, _, hor⟩
                · cases hev
                · rcases hor with hx | hx | hx <;> cases hx
            · have p2 := processPhase_facts gexec ((execPhase exec st (get_ready_tasks st)).2.1)
                ((execPhase exec st (get_ready_tasks st)).1)
              rw [heq] at p2
              simp only [StepRes.state] at p2
              rcases ih st2 rl h2 with ⟨sti, hrl, hdeps, hkeys, hcomp⟩
              refine ⟨sti, hrl, hdeps.trans (p2.2.1.trans p1.2.1),
                hkeys.trans (p2.2.2.2.1.trans p1.2.2.2.2.1), ?_⟩
              intro c hc
              rcases hcomp c hc with hc2 | hc2
              · rcases p2.2.2.2.2.2.2.2 c hc2 with hc3 | hc3
                · rw [p1.2.2.2.1] at hc3
                  exact Or.inl hc3
                · exact Or.inr (hstep c hc3)
              · rw [p2.2.2.2.1.trans p1.2.2.2.2.1] at hc2
                exact Or.inr hc2
        next st2 heq =>
          intro h
          rcases List.mem_cons.mp h with h1 | h1
          · injection h1 with h2
            exact ⟨st, h2, rfl, rfl, fun c hc => Or.inl hc⟩
          · rcases List.mem_append.mp h1 with h3 | h3
            · rcases hp1ev _ h3 with ⟨n, ks, cs, _, hev, _⟩
              cases hev
            · rcases hp2ev _ h3 with ⟨n, _, hev⟩ | ⟨g, t, _, _, hor⟩
              · cases hev
              · rcases hor with hx | hx | hx <;> cases hx
        next e st2 heq =>
          intro h
          rcases List.mem_cons.mp h with h1 | h1
          · injection h1 with h2
            exact ⟨st, h2, rfl, rfl, fun c hc => Or.inl hc⟩
          · rcases List.mem_append.mp h1 with h3 | h3
            · rcases hp1ev _ h3 with ⟨n, ks, cs, _, hev, _⟩
              cases hev
            · rcases hp2ev _ h3 with ⟨n, _, hev⟩ | ⟨g, t, _, _, hor⟩
              · cases hev
              · rcases hor with hx | hx | hx <;> cases hx

/-- Every logged dispatch carries a snapshot of the result keys that
already contains every recorded dependency of the dispatched task, and
the dispatched task was in the ready set of the loop state at hand. -/
theorem runLoop_dispatch_events (exec : String → Except Exn TaskResult)
    (gexec : String → List Value → TaskResult) :
    ∀ (fuel : Nat) (st : RunState) (n : String) (ks cs : List String),
    Event.dispatch n ks cs ∈ (runLoop exec gexec fuel st).1 →
    (∀ d ∈ dictGetD st.deps n [], d ∈ ks) ∧
    ∃ sti : RunState, n ∈ get_ready_tasks sti ∧ sti.deps = st.deps ∧
      dictKeys sti.tasks = dictKeys st.tasks ∧
      (∀ c ∈ sti.completed, c ∈ st.completed ∨ c ∈ dictKeys st.tasks) := by
  intro fuel
  induction fuel with
  | zero => intro st n ks cs h; simp [runLoop] at h
  | succ fuel ih =>
      intro st n ks cs h
      revert h
      simp only [runLoop]
      by_cases hready : (get_ready_tasks st).isEmpty = true
      · rw [if_pos hready]
        intro h
        simp at h
      · rw [if_neg hready, toExec_eq_ready st, if_neg hready]
        have p1 := execPhase_facts exec (get_ready_tasks st) st
        have hnames := execPhase_outcome_names exec (get_ready_tasks st) st
        have hp1ev := execPhase_events exec (get_ready_tasks st) st
        have hp2ev := processPhase_events gexec ((execPhase exec st (get_ready_tasks st)).2.1)
          ((execPhase exec st (get_ready_tasks st)).1)
        have hstep : ∀ c, c ∈ ((execPhase exec st (get_ready_tasks st)).2.1).map Prod.fst →
            c ∈ dictKeys st.tasks := by
          intro c hc
          rw [hnames] at hc
          exact ((mem_get_ready_tasks st c).mp hc).1
        have hp1case : Event.dispatch n ks cs ∈ (execPhase exec st (get_ready_tasks st)).2.2 →
            (∀ d ∈ dictGetD st.deps n [], d ∈ ks) ∧
            ∃ sti : RunState, n ∈ get_ready_tasks sti ∧ sti.deps = st.deps ∧
              dictKeys sti.tasks = dictKeys st.tasks ∧
              (∀ c ∈ sti.completed, c ∈ st.completed ∨ c ∈ dictKeys st.tasks) := by
          intro h3
          rcases hp1ev _ h3 with ⟨m, ks2, cs2, hm, hev, hdeps, _, _⟩
          injection hev with e1 e2 e3
          subst e1; subst e2
          exact ⟨hdeps, st, hm, rfl, rfl, fun c hc => Or.inl hc⟩
        have hp2case : Event.dispatch n ks cs ∈
            (processPhase gexec ((execPhase exec st (get_ready_tasks st)).1)
              ((execPhase exec st (get_ready_tasks st)).2.1)).1 → False := by
          intro h3
          rcases hp2ev _ h3 with ⟨m, _, hev⟩ | ⟨g, t, _, _, hor⟩
          · cases hev
          · rcases hor with hx | hx | hx <;> cases hx
        split
        next st2 heq =>
          intro h
          rcases List.mem_cons.mp h with h1 | h1
          · cases h1
          · rcases List.mem_append.mp h1 with h2 | h2
            · rcases List.mem_append.mp h2 with h3 | h3
              · exact hp1case h3
              · exact absurd h3 hp2case
            · have p2 := processPhase_facts gexec ((execPhase exec st (get_ready_tasks st)).2.1)
                ((execPhase exec st (get_ready_tasks st)).1)
              rw [heq] at p2
              simp only [StepRes.state] at p2
              have hdeps2 : st2.deps = st.deps := p2.2.1.trans p1.2.1
              rcases ih st2 n ks cs h2 with ⟨hdeps, sti, hmem, hdeps3, hkeys, hcomp⟩
              rw [hdeps2] at hdeps hdeps3
              refine ⟨hdeps, sti, hmem, hdeps3,
                hkeys.trans (p2.2.2.2.1.trans p1.2.2.2.2.1), ?_⟩
              intro c hc
              rcases hcomp c hc with hc2 | hc2
              · rcases p2.2.2.2.2.2.2.2 c hc2 with hc3 | hc3
                · rw [p1.2.2.2.1] at hc3
                  exact Or.inl hc3
                · exact Or.inr (hstep c hc3)
              · rw [p2.2.2.2.1.trans p1.2.2.2.2.1] at hc2
                exact Or.inr hc2
        next st2 heq =>
          intro h
          rcases List.mem_cons.mp h with h1 | h1
          · cases h1
          · rcases List.mem_append.mp h1 with h3 | h3
            · exact hp1case h3
            · exact absurd h3 hp2case
        next e st2 heq =>
          intro h
          rcases List.mem_cons.mp h with h1 | h1
          · cases h1
          · rcases List.mem_append.mp h1 with h3 | h3
            · exact hp1case h3
            · exact absurd h3 hp2case

/-- Every name added to the completed set during the loop is a task name. -/
theorem runLoop_completedAdd_events (exec : String → Except Exn TaskResult)
    (gexec : String → List Value → TaskResult) :
    ∀ (fuel : Nat) (st : RunState) (n : String),
    Event.completedAdd n ∈ (runLoop exec gexec fuel st).1 →
    n ∈ dictKeys st.tasks := by
  intro fuel
  induction fuel with
  | zero => intro st n h; simp [runLoop] at h
  | succ fuel ih =>
      intro st n h
      revert h
      simp only [runLoop]
      by_cases hready : (get_ready_tasks st).isEmpty = true
      · rw [if_pos hready]
        intro h
        simp at h
      · rw [if_neg hready, toExec_eq_ready st, if_neg hready]
        have p1 := execPhase_facts exec (get_ready_tasks st) st
        have hnames := execPhase_outcome_names exec (get_ready_tasks st) st
        have hp1ev := execPhase_events exec (get_ready_tasks st) st
        have hp2ev := processPhase_events gexec ((execPhase exec st (get_ready_tasks st)).2.1)
          ((execPhase exec st (get_ready_tasks st)).1)
        have hstep : ∀ c, c ∈ ((execPhase exec st (get_ready_tasks st)).2.1).map Prod.fst →
            c ∈ dictKeys st.tasks := by
          intro c hc
          rw [hnames] at hc
          exact ((mem_get_ready_tasks st c).mp hc).1
        have hp1case : Event.completedAdd n ∈ (execPhase exec st (get_ready_tasks st)).2.2 →
            False := by
          intro h3
          rcases hp1ev _ h3 with ⟨m, ks2, cs2, _, hev, _⟩
          cases hev
        have hp2case : Event.completedAdd n ∈
            (processPhase gexec ((execPhase exec st (get_ready_tasks st)).1)
              ((execPhase exec st (get_ready_tasks st)).2.1)).1 →
            n ∈ dictKeys st.tasks := by
          intro h3
          rcases hp2ev _ h3 with ⟨m, hm, hev⟩ | ⟨g, t, _, _, hor⟩
          · injection hev with e1
            subst e1
            exact hstep _ hm
          · rcases hor with hx | hx | hx <;> cases hx
        split
        next st2 heq =>
          intro h
          rcases List.mem_cons.mp h with h1 | h1
          · cases h1
          · rcases List.mem_append.mp h1 with h2 | h2
            · rcases List.mem_append.mp h2 with h3 | h3
              · exact absurd h3 hp1case
              · exact hp2case h3
            · have p2 := processPhase_facts gexec ((execPhase exec st (get_ready_tasks st)).2.1)
                ((execPhase exec st (get_ready_tasks st)).1)
              rw [heq] at p2
              simp only [StepRes.state] at p2
              have := ih st2 n h2
              rwa [p2.2.2.2.1.trans p1.2.2.2.2.1] at this
        next st2 heq =>
          intro h
          rcases List.mem_cons.mp h with h1 | h1
          · cases h1
          · rcases List.mem_append.mp h1 with h3 | h3
            · exact absurd h3 hp1case
            · exact hp2case h3
        next e st2 heq =>
          intro h
          rcases List.mem_cons.mp h with h1 | h1
          · cases h1
          · rcases List.mem_append.mp h1 with h3 | h3
            · exact absurd h3 hp1case
            · exact hp2case h3

/-- A group whose expansion was recorded keeps its result in the final
result map. -/
theorem runLoop_expanded_recorded (exec : String → Except Exn TaskResult)
    (gexec : String → List Value → TaskResult) :
    ∀ (fuel : Nat) (st : RunState) (g t : String),
    Event.expanded g t ∈ (runLoop exec gexec fuel st).1 →
    g ∈ dictKeys (runLoop exec gexec fuel st).2.2.results := by
  intro fuel
  induction fuel with
  | zero => intro st g t h; simp [runLoop] at h
  | succ fuel ih =>
      intro st g t h
      revert h
      simp only [runLoop]
      by_cases hready : (get_ready_tasks st).isEmpty = true
      · rw [if_pos hready]
        intro h
        simp at h
      · rw [if_neg hready, toExec_eq_ready st, if_neg hready]
        have hp1ev := execPhase_events exec (get_ready_tasks st) st
        have hp1case : Event.expanded g t ∈ (execPhase exec st (get_ready_tasks st)).2.2 →
            False := by
          intro h3
          rcases hp1ev _ h3 with ⟨m, ks2, cs2, _, hev, _⟩
          cases hev
        have hpprec := processPhase_expanded_recorded gexec
          ((execPhase exec st (get_ready_tasks st)).2.1)
          ((execPhase exec st (get_ready_tasks st)).1) g t
        split
        next st2 heq =>
          intro h
          rcases List.mem_cons.mp h with h1 | h1
          · cases h1
          · rcases List.mem_append.mp h1 with h2 | h2
            · rcases List.mem_append.mp h2 with h3 | h3
              · exact absurd h3 hp1case
              · have h4 := hpprec h3
                rw [heq] at h4
                simp only [StepRes.state] at h4
                exact (runLoop_facts exec gexec fuel st2).2.2.2.2.1 g h4
            · exact ih st2 g t h2
        next st2 heq =>
          intro h
          rcases List.mem_cons.mp h with h1 | h1
          · cases h1
          · rcases List.mem_append.mp h1 with h3 | h3
            · exact absurd h3 hp1case
            · have h4 := hpprec h3
              rw [heq] at h4
              simpa [StepRes.state] using h4
        next e st2 heq =>
          intro h
          rcases List.mem_cons.mp h with h1 | h1
          · cases h1
          · rcases List.mem_append.mp h1 with h3 | h3
            · exact absurd h3 hp1case
            · have h4 := hpprec h3
              rw [heq] at h4
              simpa [StepRes.state] using h4

/-- Every key of the final result map is either inherited, a registered
group's name, or was in some round's ready set. -/
theorem runLoop_results_src (exec : String → Except Exn TaskResult)
    (gexec : String → List Value → TaskResult) :
    ∀ (fuel : Nat) (st : RunState) (k : String),
    k ∈ dictKeys (runLoop exec gexec fuel st).2.2.results →
    k ∈ dictKeys st.results ∨ k ∈ dictKeys st.groups ∨
    ∃ sti : RunState, k ∈ get_ready_tasks sti ∧ sti.deps = st.deps ∧
      dictKeys sti.tasks = dictKeys st.tasks ∧
      (∀ c ∈ sti.completed, c ∈ st.completed ∨ c ∈ dictKeys st.tasks) := by
  intro fuel
  induction fuel with
  | zero => intro st k h; exact Or.inl h
  | succ fuel ih =>
      intro st k h
      revert h
      simp only [runLoop]
      by_cases hready : (get_ready_tasks st).isEmpty = true
      · rw [if_pos hready]
        intro h
        exact Or.inl h
      · rw [if_neg hready, toExec_eq_ready st, if_neg hready]
        have p1 := execPhase_facts exec (get_ready_tasks st) st
        have hnames := execPhase_outcome_names exec (get_ready_tasks st) st
        have hstep : ∀ c, c ∈ ((execPhase exec st (get_ready_tasks st)).2.1).map Prod.fst →
            c ∈ dictKeys st.tasks := by
          intro c hc
          rw [hnames] at hc
          exact ((mem_get_ready_tasks st c).mp hc).1
        have p2 := processPhase_facts gexec ((execPhase exec st (get_ready_tasks st)).2.1)
          ((execPhase exec st (get_ready_tasks st)).1)
        have hroundkeys : ∀ k2, k2 ∈ dictKeys (processPhase gexec
            ((execPhase exec st (get_ready_tasks st)).1)
            ((execPhase exec st (get_ready_tasks st)).2.1)).2.state.results →
            k2 ∈ dictKeys st.results ∨ k2 ∈ dictKeys st.groups ∨
            ∃ sti : RunState, k2 ∈ get_ready_tasks sti ∧ sti.deps = st.deps ∧
              dictKeys sti.tasks = dictKeys st.tasks ∧
              (∀ c ∈ sti.completed, c ∈ st.completed ∨ c ∈ dictKeys st.tasks) := by
          intro k2 hk2
          rcases p2.2.2.2.2.2.1 k2 hk2 with hk3 | hk3 | hk3
          · rcases p1.2.2.2.2.2.1 k2 hk3 with hk4 | hk4
            · exact Or.inl hk4
            · exact Or.inr (Or.inr ⟨st, hk4, rfl, rfl, fun c hc => Or.inl hc⟩)
          · rw [hnames] at hk3
            exact Or.inr (Or.inr ⟨st, hk3, rfl, rfl, fun c hc => Or.inl hc⟩)
          · rw [p1.1] at hk3
            exact Or.inr (Or.inl hk3)
        split
        next st2 heq =>
          intro h
          rcases ih st2 k h with hk | hk | ⟨sti, hmem, hdeps, hkeys, hcomp⟩
          · rw [heq] at p2
            simp only [StepRes.state] at p2
            exact hroundkeys k (by rw [heq]; simpa [StepRes.state] using hk)
          · rw [heq] at p2
            simp only [StepRes.state] at p2
            rw [p2.1.trans p1.1] at hk
            exact Or.inr (Or.inl hk)
          · rw [heq] at p2
            simp only [StepRes.state] at p2
            refine Or.inr (Or.inr ⟨sti, hmem, hdeps.trans (p2.2.1.trans p1.2.1),
              hkeys.trans (p2.2.2.2.1.trans p1.2.2.2.2.1), ?_⟩)
            intro c hc
            rcases hcomp c hc with hc2 | hc2
            · rcases p2.2.2.2.2.2.2.2 c hc2 with hc3 | hc3
              · rw [p1.2.2.2.1] at hc3
                exact Or.inl hc3
              · exact Or.inr (hstep c hc3)
            · rw [p2.2.2.2.1.trans p1.2.2.2.2.1] at hc2
              exact Or.inr hc2
        next st2 heq =>
          intro h
          exact hroundkeys k (by rw [heq]; simpa [StepRes.state] using h)
        next e st2 heq =>
          intro h
          exact hroundkeys k (by rw [heq]; simpa [StepRes.state] using h)

/-- Position of the first occurrence of a name in a topological order
(the list's length plus nesting when absent; only relative order is
used). -/
def myIdx : List String → String → Nat
  | [], _ => 0
  | x :: rest, n => if x == n then 0 else myIdx rest n + 1

/-- When the ready set is empty and the recorded dependency relation is
acyclic (witnessed by a topological order) with every dependency a task
name, every task is completed: otherwise the dependency-minimal
uncompleted task would be ready. -/
theorem ready_empty_complete (st : RunState) (order : List String)
    (htopo : ∀ n ∈ dictKeys st.tasks, ∀ d ∈ dictGetD st.deps n [],
      myIdx order d < myIdx order n)
    (hsat : ∀ n ∈ dictKeys st.tasks, ∀ d ∈ dictGetD st.deps n [],
      d ∈ dictKeys st.tasks)
    (hempty : get_ready_tasks st = []) :
    ∀ n ∈ dictKeys st.tasks, n ∈ st.completed := by
  have key : ∀ k : Nat, ∀ n, n ∈ dictKeys st.tasks → myIdx order n = k →
      n ∈ st.completed := by
    intro k
    induction k using Nat.strong_induction_on with
    | _ k ih =>
        intro n hn hk
        by_contra hnc
        have hready : n ∈ get_ready_tasks st := by
          rw [mem_get_ready_tasks]
          refine ⟨hn, hnc, ?_⟩
          intro d hd
          exact ih (myIdx order d) (hk ▸ htopo n hn d hd) d (hsat n hn d hd) rfl
        rw [hempty] at hready
        cases hready
  exact fun n hn => key (myIdx order n) n hn rfl

/-- A drained run with an acyclic, fully satisfiable recorded dependency
relation has completed every task. -/
theorem runLoop_drained_complete (exec : String → Except Exn TaskResult)
    (gexec : String → List Value → TaskResult) :
    ∀ (fuel : Nat) (st : RunState) (order : List String),
    (∀ n ∈ dictKeys st.tasks, ∀ d ∈ dictGetD st.deps n [],
      myIdx order d < myIdx order n) →
    (∀ n ∈ dictKeys st.tasks, ∀ d ∈ dictGetD st.deps n [],
      d ∈ dictKeys st.tasks) →
    (runLoop exec gexec fuel st).2.1 = Outcome.drained →
    ∀ n ∈ dictKeys st.tasks, n ∈ (runLoop exec gexec fuel st).2.2.completed := by
  intro fuel
  induction fuel with
  | zero => intro st order _ _ h; cases h
  | succ fuel ih =>
      intro st order htopo hsat
      simp only [runLoop]
      by_cases hready : (get_ready_tasks st).isEmpty = true
      · rw [if_pos hready]
        intro _ n hn
        exact ready_empty_complete st order htopo hsat
          (List.isEmpty_iff.mp hready) n hn
      · rw [if_neg hready, toExec_eq_ready st, if_neg hready]
        have p1 := execPhase_facts exec (get_ready_tasks st) st
        have p2 := processPhase_facts gexec ((execPhase exec st (get_ready_tasks st)).2.1)
          ((execPhase exec st (get_ready_tasks st)).1)
        split
        next st2 heq =>
          intro h n hn
          rw [heq] at p2
          simp only [StepRes.state] at p2
          have hkeys : dictKeys st2.tasks = dictKeys st.tasks :=
            p2.2.2.2.1.trans p1.2.2.2.2.1
          have hdeps : st2.deps = st.deps := p2.2.1.trans p1.2.1
          refine ih st2 order ?_ ?_ h n (by rw [hkeys]; exact hn)
          · intro m hm d hd
            rw [hkeys] at hm
            rw [hdeps] at hd
            exact htopo m hm d hd
          · intro m hm d hd
            rw [hkeys] at hm
            rw [hdeps] at hd
            rw [hkeys]
            exact hsat m hm d hd
        next st2 heq =>
          intro h; cases h
        next e st2 heq =>
          intro h; cases h

theorem dictLookup_some_mem {α : Type} (d : Dict α) (k : String) (v : α)
    (h : dictLookup d k = some v) : (k, v) ∈ d := by
  induction d with
  | nil => cases h
  | cons hd tl ih =>
      revert h
      simp only [dictLookup]
      by_cases h2 : hd.1 = k
      · rw [if_pos (by simpa using h2)]
        intro h
        injection h with h3
        have h4 : hd = (k, v) := by
          cases hd
          simp only [Prod.mk.injEq]
          exact ⟨h2, h3⟩
        exact List.mem_cons.mpr (Or.inl h4.symm)
      · rw [if_neg (by simpa using h2)]
        intro h
        exact List.mem_cons_of_mem _ (ih h)

theorem mapPair_lookup {α : Type} (f : String → α) :
    ∀ (l : List String) (d : String), d ∈ l →
    dictLookup (l.map (fun x => (x, f x))) d = some (f d) := by
  intro l
  induction l with
  | nil => intro d hd; cases hd
  | cons hd tl ih =>
      intro d hmem
      simp only [List.map_cons, dictLookup]
      by_cases h2 : hd = d
      · rw [if_pos (by simpa using h2)]
        rw [h2]
      · rw [if_neg (by simpa using h2)]
        rcases List.mem_cons.mp hmem with h3 | h3
        · exact absurd h3.symm h2
        · exact ih d h3

/-- Every path error logged by the loop names a registered group. -/
theorem runLoop_pathError_group (exec : String → Except Exn TaskResult)
    (gexec : String → List Value → TaskResult) :
    ∀ (fuel : Nat) (st : RunState) (g t : String),
    Event.pathError g t ∈ (runLoop exec gexec fuel st).1 →
    g ∈ dictKeys st.groups := by
  intro fuel
  induction fuel with
  | zero => intro st g t h; simp [runLoop] at h
  | succ fuel ih =>
      intro st g t h
      revert h
      simp only [runLoop]
      by_cases hready : (get_ready_tasks st).isEmpty = true
      · rw [if_pos hready]
        intro h
        simp at h
      · rw [if_neg hready, toExec_eq_ready st, if_neg hready]
        have p1 := execPhase_facts exec (get_ready_tasks st) st
        have hp1ev := execPhase_events exec (get_ready_tasks st) st
        have hp2ev := processPhase_events gexec ((execPhase exec st (get_ready_tasks st)).2.1)
          ((execPhase exec st (get_ready_tasks st)).1)
        have hp1case : Event.pathError g t ∈ (execPhase exec st (get_ready_tasks st)).2.2 →
            False := by
          intro h3
          rcases hp1ev _ h3 with ⟨m, ks2, cs2, _, hev, _⟩
          cases hev
        have hp2case : Event.pathError g t ∈
            (processPhase gexec ((execPhase exec st (get_ready_tasks st)).1)
              ((execPhase exec st (get_ready_tasks st)).2.1)).1 →
            g ∈ dictKeys st.groups := by
          intro h3
          rcases hp2ev _ h3 with ⟨m, _, hev⟩ | ⟨g2, t2, hg2, _, hor⟩
          · cases hev
          · have hgg : g2 = g := by
              rcases hor with hx | hx | hx
              · cases hx
              · cases hx
              · injection hx with e1 e2; exact e1.symm
            rw [hgg] at hg2
            rw [p1.1] at hg2
            exact hg2
        split
        next st2 heq =>
          intro h
          rcases List.mem_cons.mp h with h1 | h1
          · cases h1
          · rcases List.mem_append.mp h1 with h2 | h2
            · rcases List.mem_append.mp h2 with h3 | h3
              · exact absurd h3 hp1case
              · exact hp2case h3
            · have p2 := processPhase_facts gexec ((execPhase exec st (get_ready_tasks st)).2.1)
                ((execPhase exec st (get_ready_tasks st)).1)
              rw [heq] at p2
              simp only [StepRes.state] at p2
              have := ih st2 g t h2
              rwa [p2.1.trans p1.1] at this
        next st2 heq =>
          intro h
          rcases List.mem_cons.mp h with h1 | h1
          · cases h1
          · rcases List.mem_append.mp h1 with h3 | h3
            · exact absurd h3 hp1case
            · exact hp2case h3
        next e st2 heq =>
          intro h
          rcases List.mem_cons.mp h with h1 | h1
          · cases h1
          · rcases List.mem_append.mp h1 with h3 | h3
            · exact absurd h3 hp1case
            · exact hp2case h3

/-- When the dispatched task exists and every recorded dependency has a
result, the outcome of `execOne` is exactly the collaborator's. -/
theorem execOne_outcome_of_ready (exec : String → Except Exn TaskResult)
    (st : RunState) (n : String)
    (hmem : n ∈ dictKeys st.tasks)
    (hdeps : ∀ d ∈ dictGetD st.deps n [], d ∈ dictKeys st.results) :
    (execOne exec st n).2.1 = exec n := by
  cases hl : dictLookup st.tasks n with
  | none =>
      exfalso
      have h2 := (dictLookup_isSome_iff_mem st.tasks n).mpr hmem
      rw [hl] at h2
      cases h2
  | some task =>
      simp only [execOne, hl]
      have hg : ((dictGetD st.deps n []).all fun d => dictContains st.results d) = true :=
        List.all_eq_true.mpr
          (fun d hd => (dictContains_iff_mem st.results d).mpr (hdeps d hd))
      rw [if_pos hg]
      cases he : exec n with
      | ok r => rfl
      | error e => rfl

theorem execPhase_outcomes_of_ready (exec : String → Except Exn TaskResult) :
    ∀ (names : List String) (st : RunState),
    (∀ n ∈ names, n ∈ dictKeys st.tasks) →
    (∀ n ∈ names, ∀ d ∈ dictGetD st.deps n [], d ∈ dictKeys st.results) →
    ∀ p ∈ (execPhase exec st names).2.1, p.2 = exec p.1 := by
  intro names
  induction names with
  | nil => intro st _ _ p hp; simp [execPhase] at hp
  | cons n rest ih =>
      intro st hmem hdeps p hp
      simp only [execPhase] at hp
      have h1 := execOne_facts exec st n
      rcases List.mem_cons.mp hp with h2 | h2
      · subst h2
        exact execOne_outcome_of_ready exec st n (hmem n (by simp))
          (hdeps n (by simp))
      · refine ih (execOne exec st n).1 ?_ ?_ p h2
        · intro m hm
          rw [h1.2.2.2.2.1]
          exact hmem m (List.mem_cons_of_mem _ hm)
        · intro m hm d hd
          rw [h1.2.1] at hd
          exact (h1.2.2.2.2.2 d).mpr
            (Or.inl (hdeps m (List.mem_cons_of_mem _ hm) d hd))

/-- A round whose every outcome is a recorded success, in a workflow
without task groups, is processed to the end without halting or
raising. -/
theorem processPhase_all_success_cont (gexec : String → List Value → TaskResult) :
    ∀ (ocs : List (String × Except Exn TaskResult)) (st : RunState),
    st.groups = [] →
    (∀ p ∈ ocs, ∃ r, p.2 = Except.ok r ∧ r.success = true ∧
      dictLookup st.results p.1 = some r) →
    ∃ st2, (processPhase gexec st ocs).2 = StepRes.cont st2 ∧ st2.groups = [] ∧
      st2.results = st.results := by
  intro ocs
  induction ocs with
  | nil =>
      intro st hg _
      exact ⟨st, rfl, hg, rfl⟩
  | cons hd rest ih =>
      intro st hg hok
      obtain ⟨name, oc⟩ := hd
      rcases hok (name, oc) (List.mem_cons_self _ _) with ⟨r, hoc, hsucc, hlook⟩
      simp only at hoc
      subst hoc
      have hstep : processOne gexec st name (Except.ok r) =
          ([Event.completedAdd name],
           StepRes.cont { st with completed := setAdd st.completed name }) := by
        simp only [processOne, hlook]
        rw [if_pos hsucc]
        rw [show ({ st with completed := setAdd st.completed name } : RunState).groups
          = ([] : Dict TaskGroup) from hg]
        simp [expandGroups]
      simp only [processPhase, hstep]
      have hrest : ∀ p ∈ rest, ∃ r2, p.2 = Except.ok r2 ∧ r2.success = true ∧
          dictLookup ({ st with completed := setAdd st.completed name } : RunState).results p.1
            = some r2 := by
        intro p hp
        exact hok p (List.mem_cons_of_mem _ hp)
      rcases ih { st with completed := setAdd st.completed name } hg hrest with ⟨st2, hc, hg2, hr2⟩
      exact ⟨st2, hc, hg2, hr2⟩

/-- Under a collaborator that always returns success, and without task
groups, the loop can only drain (or exhaust fuel). -/
theorem runLoop_all_success_drained (exec : String → Except Exn TaskResult)
    (gexec : String → List Value → TaskResult) :
    ∀ (fuel : Nat) (st : RunState),
    st.groups = [] →
    (∀ c ∈ st.completed, c ∈ dictKeys st.results) →
    (∀ n ∈ dictKeys st.tasks, ∃ r, exec n = Except.ok r ∧ r.success = true) →
    (runLoop exec gexec fuel st).2.1 = Outcome.drained ∨
    (runLoop exec gexec fuel st).2.1 = Outcome.fuelOut := by
  intro fuel
  induction fuel with
  | zero => intro st _ _ _; exact Or.inr rfl
  | succ fuel ih =>
      intro st hg hinv hexec
      simp only [runLoop]
      by_cases hready : (get_ready_tasks st).isEmpty = true
      · rw [if_pos hready]
        exact Or.inl rfl
      · rw [if_neg hready, toExec_eq_ready st, if_neg hready]
        have p1 := execPhase_facts exec (get_ready_tasks st) st
        have hnames := execPhase_outcome_names exec (get_ready_tasks st) st
        have hmemready : ∀ n ∈ get_ready_tasks st, n ∈ dictKeys st.tasks :=
          fun n hn => ((mem_get_ready_tasks st n).mp hn).1
        have hdepsready : ∀ n ∈ get_ready_tasks st, ∀ d ∈ dictGetD st.deps n [],
            d ∈ dictKeys st.results := by
          intro n hn d hd
          exact hinv d (((mem_get_ready_tasks st n).mp hn).2.2 d hd)
        have houtcomes := execPhase_outcomes_of_ready exec (get_ready_tasks st) st
          hmemready hdepsready
        have hrecorded := execPhase_ok_recorded exec (get_ready_tasks st) st
          (get_ready_tasks_nodup st)
        have hokall : ∀ p ∈ (execPhase exec st (get_ready_tasks st)).2.1,
            ∃ r, p.2 = Except.ok r ∧ r.success = true ∧
              dictLookup (execPhase exec st (get_ready_tasks st)).1.results p.1 = some r := by
          intro p hp
          have hpn : p.1 ∈ get_ready_tasks st := by
            have : p.1 ∈ ((execPhase exec st (get_ready_tasks st)).2.1).map Prod.fst :=
              List.mem_map.mpr ⟨p, hp, rfl⟩
            rwa [hnames] at this
          rcases hexec p.1 (hmemready p.1 hpn) with ⟨r, hr, hrs⟩
          refine ⟨r, (houtcomes p hp).trans hr, hrs, ?_⟩
          exact hrecorded p hp r ((houtcomes p hp).trans hr)
        rcases processPhase_all_success_cont gexec
          ((execPhase exec st (get_ready_tasks st)).2.1)
          ((execPhase exec st (get_ready_tasks st)).1)
          (p1.1.trans hg) hokall with ⟨st2, hcont, hg2, _⟩
        split
        next st3 heq =>
          have hst23 : st2 = st3 := by
            rw [heq] at hcont
            injection hcont with h
            exact h.symm
          subst hst23
          refine ih st2 hg2 ?_ ?_
          · intro c hc
            have hinv1 : ∀ c2 ∈ (execPhase exec st (get_ready_tasks st)).1.completed,
                c2 ∈ dictKeys (execPhase exec st (get_ready_tasks st)).1.results := by
              intro c2 hc2
              rw [p1.2.2.2.1] at hc2
              exact p1.2.2.2.2.2.2 c2 (hinv c2 hc2)
            have hok2 : ∀ p ∈ (execPhase exec st (get_ready_tasks st)).2.1,
                isOkB p.2 = true →
                p.1 ∈ dictKeys (execPhase exec st (get_ready_tasks st)).1.results := by
              intro p hp _
              rcases hokall p hp with ⟨r, _, _, hl⟩
              exact dictLookup_mem_of_some _ _ _ hl
            have := processPhase_completed_in_results gexec
              ((execPhase exec st (get_ready_tasks st)).2.1)
              ((execPhase exec st (get_ready_tasks st)).1) hinv1 hok2 c
            rw [heq] at this
            simp only [StepRes.state] at this
            exact this hc
          · intro n hn
            have p2 := processPhase_facts gexec ((execPhase exec st (get_ready_tasks st)).2.1)
              ((execPhase exec st (get_ready_tasks st)).1)
            rw [heq] at p2
            simp only [StepRes.state] at p2
            rw [p2.2.2.2.1.trans p1.2.2.2.2.1] at hn
            exact hexec n hn
        next st3 heq =>
          exfalso
          rw [heq] at hcont
          cases hcont
        next e st3 heq =>
          exfalso
          rw [heq] at hcont
          cases hcont

/-! ## Config-templating lemmas -/

theorem specSplitFuel_ne_nil (tok : List Char) :
    ∀ (fuel : Nat) (s : List Char), specSplitFuel tok fuel s ≠ [] := by
  intro fuel s
  match fuel, s with
  | 0, s => simp [specSplitFuel]
  | fuel + 1, [] => simp [specSplitFuel]
  | fuel + 1, c :: rest =>
      match tok with
      | [] => simp [specSplitFuel]
      | t0 :: ts =>
          simp only [specSplitFuel]
          by_cases hp : chListPre (t0 :: ts) (c :: rest) = true
          · rw [if_pos hp]
            simp
          · rw [if_neg hp]
            cases h : specSplitFuel (t0 :: ts) fuel rest with
            | nil => simp
            | cons g gs => simp

theorem pyReplaceFuel_intercalate (tok rep : List Char) :
    ∀ (fuel : Nat) (s : List Char), s.length < fuel →
    pyReplaceFuel tok rep fuel s = chIntercalate rep (specSplitFuel tok fuel s) := by
  intro fuel
  induction fuel with
  | zero =>
      intro s hs
      exact absurd hs (Nat.not_lt_zero _)
  | succ fuel ih =>
      intro s hs
      cases s with
      | nil => simp [pyReplaceFuel, specSplitFuel, chIntercalate]
      | cons c rest =>
          cases tok with
          | nil => simp [pyReplaceFuel, specSplitFuel, chIntercalate]
          | cons t0 ts =>
              simp only [pyReplaceFuel, specSplitFuel]
              have hrest : rest.length < fuel := by
                simp only [List.length_cons] at hs
                omega
              by_cases hp : chListPre (t0 :: ts) (c :: rest) = true
              · rw [if_pos hp, if_pos hp]
                have hlen : (rest.drop ts.length).length < fuel := by
                  have h2 := List.length_drop ts.length rest
                  omega
                rw [ih _ hlen]
                cases hsp : specSplitFuel (t0 :: ts) fuel (rest.drop ts.length) with
                | nil => exact absurd hsp (specSplitFuel_ne_nil _ _ _)
                | cons g gs => simp [chIntercalate]
              · rw [if_neg hp, if_neg hp]
                rw [ih rest hrest]
                cases hsp : specSplitFuel (t0 :: ts) fuel rest with
                | nil => exact absurd hsp (specSplitFuel_ne_nil _ _ _)
                | cons g gs =>
                    cases gs with
                    | nil => simp [chIntercalate]
                    | cons g2 gs2 => simp [chIntercalate]

/-- Python's left-to-right, non-overlapping replace-all interleaves its
replacement exactly between the fragments Python's split produces at
each occurrence of the token. -/
theorem pyReplaceCh_intercalate (tok rep : List Char) (s : List Char) :
    pyReplaceCh tok rep s = chIntercalate rep (pySplitCh tok s) :=
  pyReplaceFuel_intercalate tok rep (s.length + 1) s (Nat.lt_succ_self _)

theorem dictInsert_append_of_not_mem {α : Type} (d : Dict α) (k : String) (v : α)
    (h : k ∉ dictKeys d) : dictInsert d k v = d ++ [(k, v)] := by
  induction d with
  | nil => rfl
  | cons hd tl ih =>
      simp only [dictKeys, List.map_cons, List.mem_cons] at h
      push_neg at h
      simp only [dictInsert]
      rw [if_neg (by simpa using (fun hc => h.1 hc.symm))]
      rw [ih (by simpa [dictKeys] using h.2)]
      simp

theorem prepCore_eq (item : Value) :
    ∀ (template config : Dict Value),
    (∀ k ∈ dictKeys template, k ∉ dictKeys config) →
    (dictKeys template).Nodup →
    prepCore item config template =
      config ++ template.map (fun kv => (kv.1, renderVal item kv.2)) := by
  intro template
  induction template with
  | nil => intro config _ _; simp [prepCore]
  | cons kv rest ih =>
      intro config hdisj hnd
      simp only [prepCore]
      have hk : kv.1 ∉ dictKeys config := hdisj kv.1 (by simp [dictKeys])
      rw [dictInsert_append_of_not_mem config kv.1 _ hk]
      have hnd0 : (kv.1 :: dictKeys rest).Nodup := by
        simpa only [dictKeys, List.map_cons] using hnd
      have hnd2 := List.nodup_cons.mp hnd0
      rw [ih (config ++ [(kv.1, renderVal item kv.2)]) ?_ ?_]
      · simp
      · intro k hkm
        simp only [dictKeys, List.map_append, List.mem_append] at hkm ⊢
        push_neg
        constructor
        · exact fun hc => hdisj k (by simp [dictKeys, hkm]) (by simpa [dictKeys] using hc)
        · intro hc
          simp at hc
          subst hc
          exact hnd2.1 (by simpa [dictKeys] using hkm)
      · exact hnd2.2

theorem prepare_task_config_eq (template : Dict Value) (item : Value)
    (hnd : (dictKeys template).Nodup) :
    prepare_task_config template item =
      template.map (fun kv => (kv.1, renderVal item kv.2)) := by
  simpa [prepare_task_config] using
    prepCore_eq item template [] (by simp [dictKeys]) hnd

/-! ## Concrete fixtures for counterexamples and witnesses -/

/-- A freshly created task: declared dependencies, empty mutable fields. -/
def mkTask (n : String) (ds : List String) : Task := Task.mk n ds [] [] []

/-- A trivial aggregation collaborator. -/
def trivialAgg : String → List Value → TaskResult :=
  fun _ _ => TaskResult.mk true (Value.vdict []) none

/-- An execution collaborator that always succeeds with empty output. -/
def execEmptyOk : String → Except Exn TaskResult :=
  fun _ => Except.ok (TaskResult.mk true (Value.vdict []) none)

/-- An execution collaborator that always raises. -/
def execBoom : String → Except Exn TaskResult := fun _ => Except.error (Exn.err "boom")

/-! ## Claim C1 -/

def execC1 : String → Except Exn TaskResult :=
  fun _ => Except.ok (TaskResult.mk true (Value.vdict [("b", Value.vlist [Value.vint 1])]) none)

def wfC1tasks : Dict Task := [("b", mkTask "b" [])]

def wfC1groups : Dict TaskGroup :=
  [("g", TaskGroup.mk "g" (TaskGroupConfig.mk "echo" "a.b" [] 1))]

/-- C1 (counterexample): in a workflow whose only task is `b` and whose
group `g` has `forEach = "a.b"`, the first segment (`"a"`) differs from
the completed task's name (`"b"`), yet the run loop does trigger `g`'s
expansion upon `b`'s completion (and records a result under `g`):
line 222 matches the task name against EVERY dot-separated segment, not
only the first. -/
theorem c1_counterexample :
    Event.triggered "g" "b" ∈ (runWorkflow execC1 trivialAgg wfC1tasks wfC1groups).1 ∧
    "g" ∈ dictKeys (runWorkflow execC1 trivialAgg wfC1tasks wfC1groups).2.2.results ∧
    (pySplit "a.b" ".").headD "" ≠ "b" := by decide

/-- C1 (amended): upon a task's completion whose processing continues
the round (its result succeeded and no expansion raised), the run loop
triggers expansion of a registered group if and only if SOME dot
segment of the group's `forEach` path equals the completed task's name —
not only the first segment. -/
theorem c1_trigger_condition (gexec : String → List Value → TaskResult)
    (st : RunState) (name gname : String) (oc : Except Exn TaskResult)
    (hc : (processOne gexec st name oc).2.isCont = true) :
    Event.triggered gname name ∈ (processOne gexec st name oc).1 ↔
      ∃ grp, (gname, grp) ∈ st.groups ∧
        ((pySplit grp.config.for_each ".").any fun seg => seg == name) = true := by
  cases oc with
  | error e =>
      revert hc
      simp only [processOne]
      split
      · intro hc
        simp [StepRes.isCont] at hc
      · split
        · intro hc
          rw [List.mem_cons]
          rw [expandGroups_triggered_iff gexec name gname st.groups _ hc]
          constructor
          · rintro (h | h)
            · exact absurd h (by simp)
            · exact h
          · exact fun h => Or.inr h
        · intro hc
          simp [StepRes.isCont] at hc
  | ok r0 =>
      revert hc
      simp only [processOne]
      split
      · intro hc
        simp [StepRes.isCont] at hc
      · split
        · intro hc
          rw [List.mem_cons]
          rw [expandGroups_triggered_iff gexec name gname st.groups _ hc]
          constructor
          · rintro (h | h)
            · exact absurd h (by simp)
            · exact h
          · exact fun h => Or.inr h
        · intro hc
          simp [StepRes.isCont] at hc

def stC1w : RunState :=
  RunState.mk [("t", mkTask "t" [])]
    [("g", TaskGroup.mk "g" (TaskGroupConfig.mk "echo" "t.items" [] 1))]
    [] [] [("t", TaskResult.mk true (Value.vdict [("items", Value.vlist [])]) none)] []

theorem c1_trigger_condition_witness :
    (processOne trivialAgg stC1w "t" (Except.ok (TaskResult.mk true
      (Value.vdict [("items", Value.vlist [])]) none))).2.isCont = true ∧
    (Event.triggered "g" "t" ∈ (processOne trivialAgg stC1w "t" (Except.ok (TaskResult.mk true
      (Value.vdict [("items", Value.vlist [])]) none))).1 ↔
      ∃ grp, ("g", grp) ∈ stC1w.groups ∧
        ((pySplit grp.config.for_each ".").any fun seg => seg == "t") = true) :=
  ⟨by decide, c1_trigger_condition trivialAgg stC1w "t" "g" _ (by decide)⟩

/-! ## Claim C2 -/

def wfC2tasks : Dict Task := [("a", mkTask "a" [])]

def wfC2groups : Dict TaskGroup :=
  [("g", TaskGroup.mk "g" (TaskGroupConfig.mk "echo" "a.items" [] 1))]

/-- C2 (counterexample): a workflow where task `a` completes with empty
output and a group's `forEach = "a.items"` fails to resolve: `run`
itself raises a `ValueError` (line 232), so the run operation does NOT
always return the accumulated results map normally. -/
theorem c2_counterexample :
    (runWorkflow execEmptyOk trivialAgg wfC2tasks wfC2groups).2.1 =
      Outcome.raised (PyErr.valueError "path not found in task output") := by decide

/-- C2 (amended): both drained and halted terminations are normal
returns of the accumulated results; the one exception is a triggered
group whose `forEach` path fails to resolve through the completed task's
output (or resolves to a non-list), in which case `run` raises a
`ValueError` after logging a path error for a registered group.  The
loop's fuel never runs out. -/
theorem c2_run_raises_only_path (exec : String → Except Exn TaskResult)
    (gexec : String → List Value → TaskResult)
    (tasks : Dict Task) (groups : Dict TaskGroup)
    (hnd : (dictKeys tasks).Nodup) :
    (runWorkflow exec gexec tasks groups).2.1 ≠ Outcome.fuelOut ∧
    ∀ e, (runWorkflow exec gexec tasks groups).2.1 = Outcome.raised e →
      (∃ msg, e = PyErr.valueError msg) ∧
      ∃ g t, Event.pathError g t ∈ (runWorkflow exec gexec tasks groups).1 ∧
        g ∈ dictKeys groups := by
  constructor
  · simp only [runWorkflow]
    refine runLoop_no_fuelOut exec gexec (tasks.length + 1) _ hnd List.nodup_nil ?_ ?_
    · intro c hc
      cases hc
    · simp [dictKeys]
  · intro e h
    simp only [runWorkflow] at h ⊢
    rcases runLoop_raise exec gexec (tasks.length + 1) _ e h with ⟨hmsg, g, t, hg⟩
    refine ⟨hmsg, g, t, hg, ?_⟩
    exact runLoop_pathError_group exec gexec (tasks.length + 1) _ g t hg

theorem c2_run_raises_only_path_witness :
    (dictKeys wfC2tasks).Nodup ∧
    ((runWorkflow execEmptyOk trivialAgg wfC2tasks wfC2groups).2.1 ≠ Outcome.fuelOut ∧
    ∀ e, (runWorkflow execEmptyOk trivialAgg wfC2tasks wfC2groups).2.1 = Outcome.raised e →
      (∃ msg, e = PyErr.valueError msg) ∧
      ∃ g t, Event.pathError g t ∈ (runWorkflow execEmptyOk trivialAgg wfC2tasks wfC2groups).1 ∧
        g ∈ dictKeys wfC2groups) :=
  ⟨by decide, c2_run_raises_only_path execEmptyOk trivialAgg wfC2tasks wfC2groups (by decide)⟩

/-! ## Claim C3 -/

theorem expandGroups_no_halt (gexec : String → List Value → TaskResult) (name : String) :
    ∀ (gl : List (String × TaskGroup)) (st st2 : RunState),
    (expandGroups gexec st name gl).2 ≠ StepRes.halt st2 := by
  intro gl
  induction gl with
  | nil => intro st st2 h; cases h
  | cons hd rest ih =>
      intro st st2
      obtain ⟨g0, grp0⟩ := hd
      by_cases hmatch : ((pySplit grp0.config.for_each ".").any fun seg => seg == name) = true
      · cases hl : dictLookup st.results name with
        | none =>
            simp only [expandGroups, if_pos hmatch, hl]
            intro h; cases h
        | some res =>
            cases hw : walkParts res.output (pySplit grp0.config.for_each ".").tail with
            | none =>
                simp only [expandGroups, if_pos hmatch, hl, hw]
                intro h; cases h
            | some v =>
                cases ha : asListValue v with
                | none =>
                    simp only [expandGroups, if_pos hmatch, hl, hw, ha]
                    intro h; cases h
                | some items =>
                    simp only [expandGroups, if_pos hmatch, hl, hw, ha]
                    exact ih _ st2
      · simp only [expandGroups, if_neg hmatch]
        exact ih st st2

/-- The result whose `success` flag lines 217-219 test: a raised
execution's conversion, or the result recorded for the task. -/
def recordedResult (st : RunState) (name : String) (oc : Except Exn TaskResult) :
    Option TaskResult :=
  match oc with
  | Except.error e => some (TaskResult.mk false (Value.vdict []) (some e))
  | Except.ok _ => dictLookup st.results name

def execC3 : String → Except Exn TaskResult :=
  fun _ => Except.ok (TaskResult.mk false (Value.vdict [("b", Value.vlist [])]) none)

def wfC3groups : Dict TaskGroup :=
  [("g", TaskGroup.mk "g" (TaskGroupConfig.mk "echo" "a.b" [] 1))]

/-- C3 (counterexample): task `a` completes with `success = false` and
an output through which group `g`'s path `"a.b"` WOULD resolve; the run
halts without ever entering the expansion branch (no `triggered` event,
nothing recorded under `g`): the success check of line 217 runs BEFORE
the group loop of line 221, so expansion is not evaluated for a failed
task. -/
theorem c3_counterexample :
    (runWorkflow execC3 trivialAgg wfC2tasks wfC3groups).2.1 = Outcome.halted ∧
    ((pySplit "a.b" ".").any fun seg => seg == "a") = true ∧
    Event.triggered "g" "a" ∉ (runWorkflow execC3 trivialAgg wfC2tasks wfC3groups).1 ∧
    "g" ∉ dictKeys (runWorkflow execC3 trivialAgg wfC2tasks wfC3groups).2.2.results := by
  decide

/-- C3 (amended): for every task of the round the orchestrator first
marks it completed, then immediately checks its result's success flag
and halts if it is false — WITHOUT evaluating group expansion for it
(no group is triggered for a failed task); group expansion is evaluated
only after the success check passes, and the success check is the only
source of a halt. -/
theorem c3_processing_order (gexec : String → List Value → TaskResult)
    (st : RunState) (name : String) (oc : Except Exn TaskResult) :
    (processOne gexec st name oc).2.state.completed = setAdd st.completed name ∧
    (∀ res, recordedResult st name oc = some res → res.success = false →
      (∃ st2, (processOne gexec st name oc).2 = StepRes.halt st2) ∧
      ∀ g t, Event.triggered g t ∉ (processOne gexec st name oc).1) ∧
    (∀ res, recordedResult st name oc = some res → res.success = true →
      ∀ st2, (processOne gexec st name oc).2 ≠ StepRes.halt st2) := by
  refine ⟨(processOne_facts gexec st name oc).2.2.2.1, ?_, ?_⟩
  · intro res hres hfail
    cases oc with
    | error e =>
        simp only [recordedResult] at hres
        injection hres with hres2
        subst hres2
        simp only [processOne, dictLookup_insert_self]
        refine ⟨⟨_, rfl⟩, ?_⟩
        intro g t
        simp
    | ok r0 =>
        simp only [recordedResult] at hres
        simp only [processOne, hres]
        rw [if_neg (by simp [hfail])]
        refine ⟨⟨_, rfl⟩, ?_⟩
        intro g t
        simp
  · intro res hres hsucc st2
    cases oc with
    | error e =>
        simp only [recordedResult] at hres
        injection hres with hres2
        rw [← hres2] at hsucc
        simp at hsucc
    | ok r0 =>
        simp only [recordedResult] at hres
        simp only [processOne, hres]
        rw [if_pos (by simp [hsucc])]
        exact expandGroups_no_halt gexec name st.groups _ st2

theorem c3_processing_order_witness :
    recordedResult stC1w "t" (Except.error (Exn.err "x")) =
      some (TaskResult.mk false (Value.vdict []) (some (Exn.err "x"))) ∧
    (∃ st2, (processOne trivialAgg stC1w "t" (Except.error (Exn.err "x"))).2 =
      StepRes.halt st2) ∧
    (∀ g t, Event.triggered g t ∉
      (processOne trivialAgg stC1w "t" (Except.error (Exn.err "x"))).1) :=
  ⟨rfl,
   ((c3_processing_order trivialAgg stC1w "t" (Except.error (Exn.err "x"))).2.1
     (TaskResult.mk false (Value.vdict []) (some (Exn.err "x"))) rfl rfl).1,
   ((c3_processing_order trivialAgg stC1w "t" (Except.error (Exn.err "x"))).2.1
     (TaskResult.mk false (Value.vdict []) (some (Exn.err "x"))) rfl rfl).2⟩

/-! ## Claim C4 -/

def wfC4tasks : Dict Task := [("a", mkTask "a" []), ("t", mkTask "t" ["a", "a"])]

/-- C4 (counterexample): task `t` declares the dependency list
`["a", "a"]`; after the run, its `dependency_order` is `["a"]` — line
164 builds the order from `set(task_dependencies)`, so duplicates are
collapsed (and the iteration order of a Python set is not the declared
order), hence `dependency_order` is NOT "exactly the declared list". -/
theorem c4_counterexample :
    ((dictLookup (runWorkflow execEmptyOk trivialAgg wfC4tasks []).2.2.tasks "t").map
      Task.dependency_order) = some ["a"] ∧
    (mkTask "t" ["a", "a"]).task_dependencies = ["a", "a"] ∧
    (["a"] : List String) ≠ ["a", "a"] := by decide

/-- C4 (amended): immediately before each execution attempt the
orchestrator sets the task's `dependency_order` to the declared
dependency names with duplicates removed — same underlying set of
names, duplicate-free, but not necessarily the declared sequence — and
sets `dependency_outputs` so that each declared dependency name maps to
that dependency's recorded output; the execution collaborator is then
invoked. -/
theorem c4_dependency_injection (exec : String → Except Exn TaskResult)
    (st : RunState) (name : String) (t : Task)
    (hl : dictLookup st.tasks name = some t)
    (hdeps : dictLookup st.deps name = some (pySetOfList t.task_dependencies))
    (hres : ∀ d ∈ t.task_dependencies, d ∈ dictKeys st.results) :
    ∃ t1, dictLookup (execOne exec st name).1.tasks name = some t1 ∧
      (∀ x, x ∈ t1.dependency_order ↔ x ∈ t.task_dependencies) ∧
      t1.dependency_order.Nodup ∧
      (∀ d r, d ∈ t.task_dependencies → dictLookup st.results d = some r →
        dictLookup t1.dependency_outputs d = some r.output) ∧
      (execOne exec st name).2.1 = exec name := by
  have hds : dictGetD st.deps name [] = pySetOfList t.task_dependencies := by
    rw [dictGetD, hdeps]
    rfl
  have hg : ((dictGetD st.deps name []).all fun d => dictContains st.results d) = true := by
    rw [hds]
    exact List.all_eq_true.mpr fun d hd =>
      (dictContains_iff_mem _ _).mpr (hres d ((mem_pySetOfList _ d).mp hd))
  have houts : ∀ d r, d ∈ t.task_dependencies → dictLookup st.results d = some r →
      dictLookup ((dictGetD st.deps name []).map
        (fun d2 => (d2, ((dictLookup st.results d2).map TaskResult.output).getD Value.vnone)))
        d = some r.output := by
    intro d r hd hr
    have hmem : d ∈ dictGetD st.deps name [] := by
      rw [hds]
      exact (mem_pySetOfList _ d).mpr hd
    rw [mapPair_lookup _ _ d hmem, hr]
    rfl
  simp only [execOne, hl]
  rw [if_pos hg]
  cases he : exec name with
  | ok r =>
      refine ⟨_, dictLookup_insert_self _ _ _, ?_, ?_, houts, rfl⟩
      · intro x
        show x ∈ dictGetD st.deps name [] ↔ _
        rw [hds]
        exact mem_pySetOfList _ x
      · show (dictGetD st.deps name []).Nodup
        rw [hds]
        exact pySetOfList_nodup _
  | error e =>
      refine ⟨_, dictLookup_insert_self _ _ _, ?_, ?_, houts, rfl⟩
      · intro x
        show x ∈ dictGetD st.deps name [] ↔ _
        rw [hds]
        exact mem_pySetOfList _ x
      · show (dictGetD st.deps name []).Nodup
        rw [hds]
        exact pySetOfList_nodup _

def stC4w : RunState :=
  RunState.mk [("t", mkTask "t" ["a", "a"])] []
    [("t", pySetOfList ["a", "a"])] []
    [("a", TaskResult.mk true (Value.vdict [("k", Value.vint 7)]) none)] []

theorem c4_dependency_injection_witness :
    dictLookup stC4w.tasks "t" = some (mkTask "t" ["a", "a"]) ∧
    (∃ t1, dictLookup (execOne execEmptyOk stC4w "t").1.tasks "t" = some t1 ∧
      (∀ x, x ∈ t1.dependency_order ↔ x ∈ (mkTask "t" ["a", "a"]).task_dependencies) ∧
      t1.dependency_order.Nodup ∧
      (∀ d r, d ∈ (mkTask "t" ["a", "a"]).task_dependencies →
        dictLookup stC4w.results d = some r →
        dictLookup t1.dependency_outputs d = some r.output) ∧
      (execOne execEmptyOk stC4w "t").2.1 = execEmptyOk "t") :=
  ⟨rfl,
   c4_dependency_injection execEmptyOk stC4w "t" (mkTask "t" ["a", "a"])
     rfl rfl (by decide)⟩

/-! ## Claim C8 -/

def wfC8tasks : Dict Task := [("a", mkTask "a" []), ("b", mkTask "b" [])]

/-- C8 (counterexample): both `a` and `b` (one round, both dependency
free) raise during execution; whichever failure is processed first halts
the run (line 219) before the other exception is converted and
recorded, so the returned map cannot contain entries for both — the
claim's "every raised exception is recorded under that task's name"
fails for the task processed after the halt. -/
theorem c8_counterexample :
    ¬("a" ∈ dictKeys (runWorkflow execBoom trivialAgg wfC8tasks []).2.2.results ∧
      "b" ∈ dictKeys (runWorkflow execBoom trivialAgg wfC8tasks []).2.2.results) := by
  decide

/-- C8 (amended): a raised execution is caught and, provided the round's
processing has not already halted on an earlier failure (here: every
earlier-processed task of the round succeeded with a recorded result, in
a workflow without task groups), converted into a failed `TaskResult`
whose error is the raised exception and whose output is an empty
mapping, recorded under the task's name; the exception is not
propagated — the round ends in a normal halt return. -/
theorem c8_exception_conversion (gexec : String → List Value → TaskResult) :
    ∀ (pre : List (String × Except Exn TaskResult)) (st : RunState)
      (post : List (String × Except Exn TaskResult)) (name : String) (e : Exn),
    st.groups = [] →
    (∀ p ∈ pre, ∃ r, p.2 = Except.ok r ∧ r.success = true ∧
      dictLookup st.results p.1 = some r) →
    ∃ st2, (processPhase gexec st (pre ++ (name, Except.error e) :: post)).2 =
        StepRes.halt st2 ∧
      dictLookup st2.results name =
        some (TaskResult.mk false (Value.vdict []) (some e)) := by
  intro pre
  induction pre with
  | nil =>
      intro st post name e hg _
      simp only [List.nil_append, processPhase, processOne, dictLookup_insert_self]
      exact ⟨_, rfl, dictLookup_insert_self _ _ _⟩
  | cons hd rest ih =>
      intro st post name e hg hpre
      obtain ⟨m, oc⟩ := hd
      rcases hpre (m, oc) (List.mem_cons_self _ _) with ⟨r, hoc, hsucc, hlook⟩
      simp only at hoc
      subst hoc
      have hstep : processOne gexec st m (Except.ok r) =
          ([Event.completedAdd m],
           StepRes.cont { st with completed := setAdd st.completed m }) := by
        simp only [processOne, hlook]
        rw [if_pos hsucc]
        rw [show ({ st with completed := setAdd st.completed m } : RunState).groups
          = ([] : Dict TaskGroup) from hg]
        simp [expandGroups]
      simp only [List.cons_append, processPhase, hstep]
      exact ih { st with completed := setAdd st.completed m } post name e hg
        (fun p hp => hpre p (List.mem_cons_of_mem _ hp))

theorem c8_exception_conversion_witness :
    (stC1w.groups.length = 1 → True) ∧
    ∃ st2, (processPhase trivialAgg
        (RunState.mk [("a", mkTask "a" [])] [] [] [] [] [])
        ([] ++ ("a", Except.error (Exn.err "boom")) :: [])).2 = StepRes.halt st2 ∧
      dictLookup st2.results "a" =
        some (TaskResult.mk false (Value.vdict []) (some (Exn.err "boom"))) :=
  ⟨fun _ => trivial,
   c8_exception_conversion trivialAgg []
     (RunState.mk [("a", mkTask "a" [])] [] [] [] [] [])
     [] "a" (Exn.err "boom") rfl (by simp)⟩

/-! ## Claim C9 -/

/-- C9 (confirmed): config templating returns a mapping with the same
keys in the same order; each string value containing `"${item}"` has
every occurrence of the token replaced by `str(item)` (expressed by the
split-and-interleave characterization of Python's replace-all, proved in
`pyReplaceCh_intercalate`); every other value — a string without the
token, or any non-string value, including nested mappings and lists — is
copied unchanged. -/
theorem c9_templating (template : Dict Value) (item : Value)
    (hnd : (dictKeys template).Nodup) :
    dictKeys (prepare_task_config template item) = dictKeys template ∧
    (∀ k s, (k, Value.vstr s) ∈ template → strContains s itemTok = true →
      (k, Value.vstr (String.mk (chIntercalate (pyStr item).data
        (pySplitCh itemTok.data s.data)))) ∈ prepare_task_config template item) ∧
    (∀ k v, (k, v) ∈ template → (∀ s, v = Value.vstr s → strContains s itemTok = false) →
      (k, v) ∈ prepare_task_config template item) := by
  rw [prepare_task_config_eq template item hnd]
  refine ⟨?_, ?_, ?_⟩
  · simp [dictKeys]
  · intro k s hmem hcont
    refine List.mem_map.mpr ⟨(k, Value.vstr s), hmem, ?_⟩
    simp only [renderVal]
    rw [if_pos hcont]
    simp only [Prod.mk.injEq, Value.vstr.injEq, true_and]
    rw [show pyReplaceStr s itemTok (pyStr item)
      = String.mk (pyReplaceCh itemTok.data (pyStr item).data s.data) from rfl]
    rw [pyReplaceCh_intercalate]
  · intro k v hmem hns
    refine List.mem_map.mpr ⟨(k, v), hmem, ?_⟩
    cases v with
    | vstr s =>
        simp only [renderVal]
        rw [if_neg (by simp [hns s rfl])]
    | vnone => rfl
    | vbool b => rfl
    | vint n => rfl
    | vlist xs => rfl
    | vdict kvs => rfl

def tmplC9 : Dict Value := [("msg", Value.vstr "hello ${item}"), ("n", Value.vint 3)]

theorem c9_templating_witness :
    (dictKeys tmplC9).Nodup ∧
    dictKeys (prepare_task_config tmplC9 (Value.vstr "x")) = dictKeys tmplC9 ∧
    ("msg", Value.vstr (String.mk (chIntercalate (pyStr (Value.vstr "x")).data
      (pySplitCh itemTok.data "hello ${item}".data))))
        ∈ prepare_task_config tmplC9 (Value.vstr "x") ∧
    ("n", Value.vint 3) ∈ prepare_task_config tmplC9 (Value.vstr "x") :=
  ⟨by decide,
   (c9_templating tmplC9 (Value.vstr "x") (by decide)).1,
   (c9_templating tmplC9 (Value.vstr "x") (by decide)).2.1 "msg" "hello ${item}"
     (List.mem_cons_self _ _) (by decide),
   (c9_templating tmplC9 (Value.vstr "x") (by decide)).2.2 "n" (Value.vint 3)
     (List.mem_cons_of_mem _ (List.mem_cons_self _ _)) (fun s hs => by cases hs)⟩

/-! ## Claim C10 -/

/-- C10 (confirmed): `add_task` and `create_task` raise `ValueError`
synchronously when a task of the given name exists, `add_task_group`
raises `ValueError` when a group of the given name exists, `get_task`
raises `ValueError` for an unknown task name and `get_task_output`
raises `ValueError` for a name that is neither a task nor a group; in
every such error case the workflow (its task map and group map) is
returned unchanged (`get_task` and `get_task_output` perform no mutation
by construction). -/
theorem c10_sync_errors
    (registryCreate : String → String → Dict Value → Except PyErr Task)
    (taskOut : Task → Value) (groupOut : TaskGroup → Value)
    (wf : Workflow) (task : Task) (name task_type : String) (cfg : Dict Value)
    (gcfg : TaskGroupConfig) :
    (task.name ∈ dictKeys wf.tasks →
      (wf.add_task task).1 =
        Except.error (PyErr.valueError "task already exists in workflow") ∧
      (wf.add_task task).2 = wf) ∧
    (name ∈ dictKeys wf.tasks →
      (Workflow.create_task registryCreate wf task_type name cfg).1 =
        Except.error (PyErr.valueError "task already exists") ∧
      (Workflow.create_task registryCreate wf task_type name cfg).2 = wf) ∧
    (name ∈ dictKeys wf.task_groups →
      (wf.add_task_group name gcfg).1 =
        Except.error (PyErr.valueError "task group already exists") ∧
      (wf.add_task_group name gcfg).2 = wf) ∧
    (name ∉ dictKeys wf.tasks →
      wf.get_task name = Except.error (PyErr.valueError "task not found")) ∧
    (name ∉ dictKeys wf.tasks → name ∉ dictKeys wf.task_groups →
      Workflow.get_task_output taskOut groupOut wf name =
        Except.error (PyErr.valueError "task or group not found")) := by
  refine ⟨?_, ?_, ?_, ?_, ?_⟩
  · intro h
    have hc : dictContains wf.tasks task.name = true := (dictContains_iff_mem _ _).mpr h
    simp only [Workflow.add_task, hc]
    exact ⟨rfl, rfl⟩
  · intro h
    have hc : dictContains wf.tasks name = true := (dictContains_iff_mem _ _).mpr h
    simp only [Workflow.create_task, hc]
    exact ⟨rfl, rfl⟩
  · intro h
    have hc : dictContains wf.task_groups name = true := (dictContains_iff_mem _ _).mpr h
    simp only [Workflow.add_task_group, hc]
    exact ⟨rfl, rfl⟩
  · intro h
    simp only [Workflow.get_task, dictLookup_eq_none_of_not_mem wf.tasks name h]
  · intro h1 h2
    simp only [Workflow.get_task_output,
      dictLookup_eq_none_of_not_mem wf.tasks name h1,
      dictLookup_eq_none_of_not_mem wf.task_groups name h2]

def wfC10 : Workflow :=
  Workflow.mk "w" [("a", mkTask "a" [])]
    [("g", TaskGroup.mk "g" (TaskGroupConfig.mk "echo" "a.items" [] 1))]

theorem c10_sync_errors_witness :
    ("a" ∈ dictKeys wfC10.tasks ∧
      (wfC10.add_task (mkTask "a" [])).1 =
        Except.error (PyErr.valueError "task already exists in workflow") ∧
      (wfC10.add_task (mkTask "a" [])).2 = wfC10) ∧
    ("g" ∈ dictKeys wfC10.task_groups ∧
      (wfC10.add_task_group "g" (TaskGroupConfig.mk "echo" "a.items" [] 1)).1 =
        Except.error (PyErr.valueError "task group already exists")) ∧
    wfC10.get_task "zz" = Except.error (PyErr.valueError "task not found") ∧
    Workflow.get_task_output (fun _ => Value.vnone) (fun _ => Value.vnone) wfC10 "zz" =
      Except.error (PyErr.valueError "task or group not found") := by
  have h := c10_sync_errors (fun _ _ _ => Except.error (PyErr.valueError "no registry"))
    (fun _ => Value.vnone) (fun _ => Value.vnone) wfC10 (mkTask "a" []) "zz" "echo" []
    (TaskGroupConfig.mk "echo" "a.items" [] 1)
  have h2 := c10_sync_errors (fun _ _ _ => Except.error (PyErr.valueError "no registry"))
    (fun _ => Value.vnone) (fun _ => Value.vnone) wfC10 (mkTask "a" []) "g" "echo" []
    (TaskGroupConfig.mk "echo" "a.items" [] 1)
  refine ⟨⟨by decide, h.1 (by decide)⟩, ⟨by decide, (h2.2.2.1 (by decide)).1⟩,
    h.2.2.2.1 (by decide), h.2.2.2.2 (by decide) (by decide)⟩

theorem mem_dictKeys_lookup {α : Type} (d : Dict α) (k : String)
    (h : k ∈ dictKeys d) : ∃ v, dictLookup d k = some v := by
  have h2 := (dictLookup_isSome_iff_mem d k).mpr h
  cases hl : dictLookup d k with
  | none => rw [hl] at h2; cases h2
  | some v => exact ⟨v, rfl⟩

/-! ## Claim C5 -/

def execC5 : String → Except Exn TaskResult :=
  fun n =>
    if n == "a" then Except.ok (TaskResult.mk false (Value.vdict []) none)
    else Except.ok (TaskResult.mk true (Value.vdict []) none)

def wfC5tasks : Dict Task := [("a", mkTask "a" []), ("b", mkTask "b" ["a"])]

/-- C5 (counterexample): the graph `a ← b` is acyclic with every
dependency satisfiable and no task groups, yet when `a`'s execution
reports failure the run halts and `b` never appears in the returned
result map — the claim omits the assumption that every execution
succeeds. -/
theorem c5_counterexample :
    (runWorkflow execC5 trivialAgg wfC5tasks []).2.1 = Outcome.halted ∧
    "b" ∉ dictKeys (runWorkflow execC5 trivialAgg wfC5tasks []).2.2.results ∧
    (∀ p ∈ wfC5tasks, ∀ d ∈ (Prod.snd p).task_dependencies,
      myIdx ["a", "b"] d < myIdx ["a", "b"] p.1) ∧
    (∀ p ∈ wfC5tasks, ∀ d ∈ (Prod.snd p).task_dependencies, d ∈ dictKeys wfC5tasks) := by
  decide

/-- C5 (amended): for every workflow whose dependency graph is acyclic
(witnessed by a topological order), with no unsatisfiable dependency and
no task groups, and whose every execution attempt returns a successful
result, `run()` drains with every task present in the returned result
map; and (unconditionally on the success assumption — it is used only
for the first two conclusions) every dispatch happens only when all of
the dispatched task's declared dependencies are already present in the
result map, as witnessed by the dispatch snapshot. -/
theorem c5_acyclic_completes (tasks : Dict Task)
    (exec : String → Except Exn TaskResult) (gexec : String → List Value → TaskResult)
    (order : List String)
    (hnd : (dictKeys tasks).Nodup)
    (htopo : ∀ p ∈ tasks, ∀ d ∈ (Prod.snd p).task_dependencies,
      myIdx order d < myIdx order p.1)
    (hsat : ∀ p ∈ tasks, ∀ d ∈ (Prod.snd p).task_dependencies, d ∈ dictKeys tasks)
    (hexec : ∀ n ∈ dictKeys tasks, ∃ r, exec n = Except.ok r ∧ r.success = true) :
    (runWorkflow exec gexec tasks []).2.1 = Outcome.drained ∧
    (∀ n ∈ dictKeys tasks, n ∈ dictKeys (runWorkflow exec gexec tasks []).2.2.results) ∧
    (∀ n ks cs t, Event.dispatch n ks cs ∈ (runWorkflow exec gexec tasks []).1 →
      dictLookup tasks n = some t → ∀ d ∈ t.task_dependencies, d ∈ ks) := by
  simp only [runWorkflow]
  have hstored : ∀ n t, dictLookup tasks n = some t →
      dictGetD (build_dependency_graph tasks).1 n [] = pySetOfList t.task_dependencies := by
    intro n t hlt
    have h2 := build_graph_deps_lookup tasks n t hnd (dictLookup_some_mem _ _ _ hlt)
    simp only [dictGetD]
    rw [h2]
    rfl
  have htopoS : ∀ n ∈ dictKeys tasks, ∀ dp ∈ dictGetD (build_dependency_graph tasks).1 n [],
      myIdx order dp < myIdx order n := by
    intro n hn dp hd
    rcases mem_dictKeys_lookup tasks n hn with ⟨t, hlt⟩
    rw [hstored n t hlt] at hd
    exact htopo (n, t) (dictLookup_some_mem _ _ _ hlt) dp ((mem_pySetOfList _ dp).mp hd)
  have hsatS : ∀ n ∈ dictKeys tasks, ∀ dp ∈ dictGetD (build_dependency_graph tasks).1 n [],
      dp ∈ dictKeys tasks := by
    intro n hn dp hd
    rcases mem_dictKeys_lookup tasks n hn with ⟨t, hlt⟩
    rw [hstored n t hlt] at hd
    exact hsat (n, t) (dictLookup_some_mem _ _ _ hlt) dp ((mem_pySetOfList _ dp).mp hd)
  have hnofuel := runLoop_no_fuelOut exec gexec (tasks.length + 1)
    (RunState.mk tasks [] (build_dependency_graph tasks).1 (build_dependency_graph tasks).2 [] [])
    hnd List.nodup_nil (fun c hc => absurd hc (List.not_mem_nil c))
    (by simp [dictKeys])
  have hdr := runLoop_all_success_drained exec gexec (tasks.length + 1)
    (RunState.mk tasks [] (build_dependency_graph tasks).1 (build_dependency_graph tasks).2 [] [])
    rfl (fun c hc => absurd hc (List.not_mem_nil c)) hexec
  have houtcome :
      (runLoop exec gexec (tasks.length + 1)
        (RunState.mk tasks [] (build_dependency_graph tasks).1
          (build_dependency_graph tasks).2 [] [])).2.1 = Outcome.drained := by
    rcases hdr with h | h
    · exact h
    · exact absurd h hnofuel
  refine ⟨houtcome, ?_, ?_⟩
  · intro n hn
    have hcomp := runLoop_drained_complete exec gexec (tasks.length + 1)
      (RunState.mk tasks [] (build_dependency_graph tasks).1
        (build_dependency_graph tasks).2 [] []) order htopoS hsatS houtcome n hn
    exact runLoop_completed_in_results exec gexec (tasks.length + 1)
      (RunState.mk tasks [] (build_dependency_graph tasks).1
        (build_dependency_graph tasks).2 [] [])
      (fun c hc => absurd hc (List.not_mem_nil c)) n hcomp
  · intro n ks cs t hev hlt dp hd
    have hdisp := runLoop_dispatch_events exec gexec (tasks.length + 1)
      (RunState.mk tasks [] (build_dependency_graph tasks).1
        (build_dependency_graph tasks).2 [] []) n ks cs hev
    apply hdisp.1 dp
    rw [hstored n t hlt]
    exact (mem_pySetOfList _ dp).mpr hd

def wfC5w : Dict Task := [("a", mkTask "a" []), ("b", mkTask "b" ["a"])]

theorem c5_acyclic_completes_witness :
    (dictKeys wfC5w).Nodup ∧
    ((runWorkflow execEmptyOk trivialAgg wfC5w []).2.1 = Outcome.drained ∧
    (∀ n ∈ dictKeys wfC5w, n ∈ dictKeys (runWorkflow execEmptyOk trivialAgg wfC5w []).2.2.results) ∧
    (∀ n ks cs t, Event.dispatch n ks cs ∈ (runWorkflow execEmptyOk trivialAgg wfC5w []).1 →
      dictLookup wfC5w n = some t → ∀ d ∈ t.task_dependencies, d ∈ ks)) :=
  ⟨by decide,
   c5_acyclic_completes wfC5w execEmptyOk trivialAgg ["a", "b"] (by decide) (by decide)
     (by decide) (fun n _ => ⟨TaskResult.mk true (Value.vdict []) none, rfl, rfl⟩)⟩

/-! ## Claim C6 -/

def execC6 : String → Except Exn TaskResult :=
  fun n =>
    if n == "a" then
      Except.ok (TaskResult.mk true (Value.vdict [("items", Value.vlist [Value.vint 1])]) none)
    else Except.ok (TaskResult.mk true (Value.vdict []) none)

def wfC6tasks : Dict Task := [("a", mkTask "a" []), ("X", mkTask "X" ["g"])]

def wfC6groups : Dict TaskGroup :=
  [("g", TaskGroup.mk "g" (TaskGroupConfig.mk "echo" "b.x" [] 1)),
   ("X", TaskGroup.mk "X" (TaskGroupConfig.mk "echo" "a.items" [] 1))]

/-- C6 (counterexample): task `X` depends on group `g`, whose name never
coincides with a completing plain task.  The claim asserts that `g`'s
aggregated result is recorded under `g` and that `X` is absent from the
returned map.  Here `g` (whose `forEach = "b.x"` never matches a
completed task) is never triggered, so nothing is recorded under `g`;
and a second registered group that happens to be named `X` records its
aggregate under the key `X`, so the dependent task's name DOES appear in
the returned map although the task was never run. -/
theorem c6_counterexample :
    "g" ∉ dictKeys (runWorkflow execC6 trivialAgg wfC6tasks wfC6groups).2.2.results ∧
    "X" ∈ dictKeys (runWorkflow execC6 trivialAgg wfC6tasks wfC6groups).2.2.results := by
  decide

/-- C6 (amended): a task whose declared dependencies include a group
name `g` that is never the name of a task never becomes ready and is
never dispatched; no name outside the task map — in particular `g` — is
ever added to the completed set the readiness selector consults;
whenever `g`'s expansion IS recorded, its aggregated result remains
under `g` in the final result map; and the dependent task is absent
from the returned result map provided its own name is not also a
registered group name. -/
theorem c6_group_dependency_stall (exec : String → Except Exn TaskResult)
    (gexec : String → List Value → TaskResult)
    (tasks : Dict Task) (groups : Dict TaskGroup)
    (tname g : String) (t : Task)
    (hnd : (dictKeys tasks).Nodup)
    (ht : dictLookup tasks tname = some t)
    (hdep : g ∈ t.task_dependencies)
    (hgtask : g ∉ dictKeys tasks)
    (htgroup : tname ∉ dictKeys groups) :
    (∀ rl, Event.roundReady rl ∈ (runWorkflow exec gexec tasks groups).1 → tname ∉ rl) ∧
    (∀ ks cs, Event.dispatch tname ks cs ∉ (runWorkflow exec gexec tasks groups).1) ∧
    (∀ n, Event.completedAdd n ∈ (runWorkflow exec gexec tasks groups).1 → n ≠ g) ∧
    (∀ t2, Event.expanded g t2 ∈ (runWorkflow exec gexec tasks groups).1 →
      g ∈ dictKeys (runWorkflow exec gexec tasks groups).2.2.results) ∧
    tname ∉ dictKeys (runWorkflow exec gexec tasks groups).2.2.results := by
  simp only [runWorkflow]
  have hstored : dictGetD (build_dependency_graph tasks).1 tname []
      = pySetOfList t.task_dependencies := by
    have h2 := build_graph_deps_lookup tasks tname t hnd (dictLookup_some_mem _ _ _ ht)
    simp only [dictGetD]
    rw [h2]
    rfl
  have hnotready : ∀ sti : RunState,
      sti.deps = (build_dependency_graph tasks).1 →
      (∀ c ∈ sti.completed, c ∈ ([] : List String) ∨ c ∈ dictKeys tasks) →
      tname ∉ get_ready_tasks sti := by
    intro sti hdeps hcomp hmem
    rcases (mem_get_ready_tasks sti tname).mp hmem with ⟨_, _, halldeps⟩
    have hginsti : g ∈ dictGetD sti.deps tname [] := by
      rw [hdeps, hstored]
      exact (mem_pySetOfList _ g).mpr hdep
    rcases hcomp g (halldeps g hginsti) with h | h
    · cases h
    · exact hgtask h
  refine ⟨?_, ?_, ?_, ?_, ?_⟩
  · intro rl hev hmem
    rcases runLoop_ready_events exec gexec _ _ rl hev with ⟨sti, hrl, hdeps, _, hcomp⟩
    rw [hrl] at hmem
    exact hnotready sti hdeps hcomp hmem
  · intro ks cs hev
    rcases runLoop_dispatch_events exec gexec _ _ tname ks cs hev with
      ⟨_, sti, hmem, hdeps, _, hcomp⟩
    exact hnotready sti hdeps hcomp hmem
  · intro n hev hne
    subst hne
    exact hgtask (runLoop_completedAdd_events exec gexec _ _ n hev)
  · intro t2 hev
    exact runLoop_expanded_recorded exec gexec _ _ g t2 hev
  · intro hmem
    rcases runLoop_results_src exec gexec _ _ tname hmem with h | h | ⟨sti, hrm, hdeps, _, hcomp⟩
    · cases h
    · exact htgroup h
    · exact hnotready sti hdeps hcomp hrm

theorem c6_group_dependency_stall_witness :
    (dictLookup wfC6tasks "X" = some (mkTask "X" ["g"])) ∧
    ((∀ rl, Event.roundReady rl ∈ (runWorkflow execC6 trivialAgg wfC6tasks
        [("g", TaskGroup.mk "g" (TaskGroupConfig.mk "echo" "b.x" [] 1))]).1 → "X" ∉ rl) ∧
    (∀ ks cs, Event.dispatch "X" ks cs ∉ (runWorkflow execC6 trivialAgg wfC6tasks
        [("g", TaskGroup.mk "g" (TaskGroupConfig.mk "echo" "b.x" [] 1))]).1) ∧
    (∀ n, Event.completedAdd n ∈ (runWorkflow execC6 trivialAgg wfC6tasks
        [("g", TaskGroup.mk "g" (TaskGroupConfig.mk "echo" "b.x" [] 1))]).1 → n ≠ "g") ∧
    (∀ t2, Event.expanded "g" t2 ∈ (runWorkflow execC6 trivialAgg wfC6tasks
        [("g", TaskGroup.mk "g" (TaskGroupConfig.mk "echo" "b.x" [] 1))]).1 →
      "g" ∈ dictKeys (runWorkflow execC6 trivialAgg wfC6tasks
        [("g", TaskGroup.mk "g" (TaskGroupConfig.mk "echo" "b.x" [] 1))]).2.2.results) ∧
    "X" ∉ dictKeys (runWorkflow execC6 trivialAgg wfC6tasks
        [("g", TaskGroup.mk "g" (TaskGroupConfig.mk "echo" "b.x" [] 1))]).2.2.results) :=
  ⟨rfl,
   c6_group_dependency_stall execC6 trivialAgg wfC6tasks
     [("g", TaskGroup.mk "g" (TaskGroupConfig.mk "echo" "b.x" [] 1))]
     "X" "g" (mkTask "X" ["g"]) (by decide) rfl (by decide) (by decide) (by decide)⟩

/-! ## Claim C7 -/

def wfC7tasks : Dict Task := [("a", mkTask "a" []), ("x", mkTask "x" ["missing"])]

/-- C7 (counterexample): task `x` declares the dependency `"missing"`,
which is never a task name and never completed, but the run does NOT
return normally: an unrelated registered group's path fails to resolve
through task `a`'s output and `run` raises a `ValueError`. -/
theorem c7_counterexample :
    "missing" ∉ dictKeys wfC7tasks ∧
    (runWorkflow execEmptyOk trivialAgg wfC7tasks wfC2groups).2.1 =
      Outcome.raised (PyErr.valueError "path not found in task output") := by
  decide

/-- C7 (amended): in a workflow with no registered task groups, a task
declaring a dependency name that never appears as a task name (and so is
never marked completed) leaves `run()` returning normally (drained or
halted, no exception), with that task excluded from every computed ready
set, never dispatched, and absent from the returned result map. -/
theorem c7_unsatisfiable_dependency (exec : String → Except Exn TaskResult)
    (gexec : String → List Value → TaskResult)
    (tasks : Dict Task) (x dep0 : String) (tx : Task)
    (hnd : (dictKeys tasks).Nodup)
    (hx : dictLookup tasks x = some tx)
    (hd : dep0 ∈ tx.task_dependencies)
    (hdna : dep0 ∉ dictKeys tasks) :
    ((runWorkflow exec gexec tasks []).2.1 = Outcome.drained ∨
     (runWorkflow exec gexec tasks []).2.1 = Outcome.halted) ∧
    (∀ rl, Event.roundReady rl ∈ (runWorkflow exec gexec tasks []).1 → x ∉ rl) ∧
    (∀ ks cs, Event.dispatch x ks cs ∉ (runWorkflow exec gexec tasks []).1) ∧
    x ∉ dictKeys (runWorkflow exec gexec tasks []).2.2.results := by
  simp only [runWorkflow]
  have hstored : dictGetD (build_dependency_graph tasks).1 x []
      = pySetOfList tx.task_dependencies := by
    have h2 := build_graph_deps_lookup tasks x tx hnd (dictLookup_some_mem _ _ _ hx)
    simp only [dictGetD]
    rw [h2]
    rfl
  have hnotready : ∀ sti : RunState,
      sti.deps = (build_dependency_graph tasks).1 →
      (∀ c ∈ sti.completed, c ∈ ([] : List String) ∨ c ∈ dictKeys tasks) →
      x ∉ get_ready_tasks sti := by
    intro sti hdeps hcomp hmem
    rcases (mem_get_ready_tasks sti x).mp hmem with ⟨_, _, halldeps⟩
    have hginsti : dep0 ∈ dictGetD sti.deps x [] := by
      rw [hdeps, hstored]
      exact (mem_pySetOfList _ dep0).mpr hd
    rcases hcomp dep0 (halldeps dep0 hginsti) with h | h
    · cases h
    · exact hdna h
  refine ⟨?_, ?_, ?_, ?_⟩
  · have hnofuel := runLoop_no_fuelOut exec gexec (tasks.length + 1)
      (RunState.mk tasks [] (build_dependency_graph tasks).1
        (build_dependency_graph tasks).2 [] [])
      hnd List.nodup_nil (fun c hc => absurd hc (List.not_mem_nil c))
      (by simp [dictKeys])
    cases houtc : (runLoop exec gexec (tasks.length + 1)
        (RunState.mk tasks [] (build_dependency_graph tasks).1
          (build_dependency_graph tasks).2 [] [])).2.1 with
    | drained => exact Or.inl rfl
    | halted => exact Or.inr rfl
    | fuelOut => exact absurd houtc hnofuel
    | raised e =>
        exfalso
        rcases runLoop_raise exec gexec _ _ e houtc with ⟨_, g2, t2, hg⟩
        have := runLoop_pathError_group exec gexec _ _ g2 t2 hg
        simp [dictKeys] at this
  · intro rl hev hmem
    rcases runLoop_ready_events exec gexec _ _ rl hev with ⟨sti, hrl, hdeps, _, hcomp⟩
    rw [hrl] at hmem
    exact hnotready sti hdeps hcomp hmem
  · intro ks cs hev
    rcases runLoop_dispatch_events exec gexec _ _ x ks cs hev with
      ⟨_, sti, hmem, hdeps, _, hcomp⟩
    exact hnotready sti hdeps hcomp hmem
  · intro hmem
    rcases runLoop_results_src exec gexec _ _ x hmem with h | h | ⟨sti, hrm, hdeps, _, hcomp⟩
    · cases h
    · simp [dictKeys] at h
    · exact hnotready sti hdeps hcomp hrm

theorem c7_unsatisfiable_dependency_witness :
    (dictLookup wfC7tasks "x" = some (mkTask "x" ["missing"])) ∧
    (((runWorkflow execEmptyOk trivialAgg wfC7tasks []).2.1 = Outcome.drained ∨
      (runWorkflow execEmptyOk trivialAgg wfC7tasks []).2.1 = Outcome.halted) ∧
    (∀ rl, Event.roundReady rl ∈ (runWorkflow execEmptyOk trivialAgg wfC7tasks []).1 →
      "x" ∉ rl) ∧
    (∀ ks cs, Event.dispatch "x" ks cs ∉ (runWorkflow execEmptyOk trivialAgg wfC7tasks []).1) ∧
    "x" ∉ dictKeys (runWorkflow execEmptyOk trivialAgg wfC7tasks []).2.2.results) :=
  ⟨rfl,
   c7_unsatisfiable_dependency execEmptyOk trivialAgg wfC7tasks "x" "missing"
     (mkTask "x" ["missing"]) (by decide) rfl (by decide) (by decide)⟩

end OmniTask
